import Mathlib

/-!
# gocsv: `clean` and `view`

A shallow embedding of `clean.go` (the rectangularizer) and `view.go` (the table
renderer), followed by theorems about them.

Conventions of the embedding:

* a Go `string` is a sequence of bytes, so a cell is a `List Nat` of byte values;
  `len(s)` is `List.length`, `s[a:b]` is `List.take`/`List.drop`, `s != ""` is `s ≠ []`;
* a Go `int` is an `Int`; every quantity handled here is bounded by a slice or string
  length, far from the 64-bit range;
* a loop is a structurally recursive function threading the loop's variables;
* the rows handed to `csv.Writer.Write` are collected in a list, in the order written;
* `Clean`'s `verbose` flag only adds lines on the diagnostic stream and does not change
  any variable of the function; the diagnostic stream is not part of the model;
* an index out of range (a run-time panic in Go) is `none`.
* the writer and reader of `encoding/csv`, through which the output of one run reaches a
  second run, are modelled on fields that need no quotes, and are `none` elsewhere.
-/

namespace Gocsv

/-- A Go string, as its bytes. -/
abbrev Cell := List Nat

/-- One record of the CSV file. -/
abbrev Row := List Cell

/-- The bytes of an ASCII string literal, used to write test data. -/
def ascii (s : String) : Cell := s.toList.map Char.toNat

/-! ## clean.go -/

def EXCEL_CELL_CHAR_LIMIT : Nat := 32767

def NUMBERS_ROW_LIMIT : Int := 65535

/-- Lines 64-68 of clean.go: `for j, elem := range row { if elem != "" { lastNonEmptyIndex = j } }`,
started at cell index `j` with the current value of `lastNonEmptyIndex`. -/
def lastNonEmptyLoop : Row → Nat → Int → Int
  | [], _, lastNonEmptyIndex => lastNonEmptyIndex
  | elem :: rest, j, lastNonEmptyIndex =>
    lastNonEmptyLoop rest (j + 1) (if elem ≠ [] then (j : Int) else lastNonEmptyIndex)

/-- The variables of the first loop of `Clean`. -/
structure ScanState where
  numColumns : Int
  trimFromIndex : Int
  deriving DecidableEq, Repr

/-- Lines 63-77 of clean.go: the body of the first loop, for row `i`. -/
def scanStep (s : ScanState) (i : Nat) (row : Row) : ScanState :=
  let lastNonEmptyIndex := lastNonEmptyLoop row 0 (-1)
  let trimFromIndex :=
    if lastNonEmptyIndex > -1 then -1
    else if s.trimFromIndex = -1 then (i : Int)
    else s.trimFromIndex
  let numColumnsInRow := lastNonEmptyIndex + 1
  let numColumns := if s.numColumns < numColumnsInRow then numColumnsInRow else s.numColumns
  { numColumns := numColumns, trimFromIndex := trimFromIndex }

/-- Lines 62-78 of clean.go: `for i, row := range rows`, started at row index `i`. -/
def scanLoop : List Row → Nat → ScanState → ScanState
  | [], _, s => s
  | row :: rest, i, s => scanLoop rest (i + 1) (scanStep s i row)

/-- Lines 60-78 of clean.go: the first pass, from `numColumns := 0`, `trimFromIndex := -1`. -/
def scan (rows : List Row) : ScanState :=
  scanLoop rows 0 { numColumns := 0, trimFromIndex := -1 }

/-- The value of `numColumns` after the first pass (the CanonicalWidth). -/
def numColumns (rows : List Row) : Int := (scan rows).numColumns

/-- The value of `trimFromIndex` after the first pass (the TrimCutoff, `-1` for none). -/
def trimFromIndex (rows : List Row) : Int := (scan rows).trimFromIndex

/-- Go's builtin `copy(dst, src)` on slices: the first `min(len(dst), len(src))` elements of
`dst` are overwritten by those of `src`; the length of `dst` is unchanged. -/
def copy (dst src : Row) : Row := src.take dst.length ++ dst.drop src.length

/-- Lines 104-106 of clean.go: `for i := len(row); i < numColumns; i++ { shellRow[i] = "" }`;
the first argument is the number of iterations left, `numColumns - i`. -/
def padLoop : Nat → Nat → Row → Row
  | 0, _, shellRow => shellRow
  | n + 1, i, shellRow => padLoop n (i + 1) (shellRow.set i [])

/-- Lines 95-113 of clean.go: the three branches that load `row` into the scratch row. -/
def fixRow (numColumns : Int) (shellRow row : Row) : Row :=
  if (row.length : Int) = numColumns then
    copy shellRow row
  else if (row.length : Int) < numColumns then
    padLoop (numColumns - row.length).toNat row.length (copy shellRow row)
  else
    copy shellRow row

/-- Lines 115-123 of clean.go: `for j, cell := range shellRow`, cutting a cell longer than the
limit to `cell[0:EXCEL_CELL_CHAR_LIMIT]`; the first argument is the number of iterations
left, `len(shellRow) - j`. -/
def excelLoop : Nat → Nat → Row → Row
  | 0, _, shellRow => shellRow
  | n + 1, j, shellRow =>
    match shellRow[j]? with
    | none => shellRow
    | some cell =>
      if cell.length > EXCEL_CELL_CHAR_LIMIT then
        excelLoop n (j + 1) (shellRow.set j (cell.take EXCEL_CELL_CHAR_LIMIT))
      else
        excelLoop n (j + 1) shellRow

/-- Lines 82-127 of clean.go: `for i, row := range rows`, started at row index `i` with the
current contents of the scratch row; the result is the list of rows written. -/
def emitLoop (numColumns trimFromIndex : Int) (noTrim excel numbers : Bool) :
    List Row → Nat → Row → List Row
  | [], _, _ => []
  | row :: rest, i, shellRow =>
    if numbers = true ∧ (i : Int) ≥ NUMBERS_ROW_LIMIT then
      []
    else if noTrim = false ∧ trimFromIndex > -1 ∧ (i : Int) ≥ trimFromIndex then
      []
    else
      let shellRow1 := fixRow numColumns shellRow row
      let shellRow2 := if excel = true then excelLoop shellRow1.length 0 shellRow1 else shellRow1
      shellRow2 :: emitLoop numColumns trimFromIndex noTrim excel numbers rest (i + 1) shellRow2

/-- `Clean` of clean.go on the rows read from the input: the rows it writes, in order.
`make([]string, numColumns)` is a slice of `numColumns` empty strings. -/
def Clean (rows : List Row) (noTrim excel numbers : Bool) : List Row :=
  let s := scan rows
  let shellRow : Row := List.replicate s.numColumns.toNat []
  emitLoop s.numColumns s.trimFromIndex noTrim excel numbers rows 0 shellRow

/-! ### Reference description of `clean`, in the words of the specification -/

/-- A row normalized to `width` cells: its first `width` cells, right-padded with empty
cells up to `width`. -/
def normalizeRow (width : Nat) (row : Row) : Row :=
  row.take width ++ List.replicate (width - row.length) []

/-- The pure reference for `clean` without limit flags: the rows before the cutoff (all rows
if `noTrim` or the cutoff is none), each normalized to the canonical width. -/
def cleanReference (rows : List Row) (noTrim : Bool) : List Row :=
  let kept := if noTrim = true ∨ trimFromIndex rows = -1 then rows
              else rows.take (trimFromIndex rows).toNat
  kept.map (normalizeRow (numColumns rows).toNat)

/-- A row is fully empty when each of its cells is the empty string. -/
def RowEmpty (row : Row) : Prop := ∀ c ∈ row, c = []

instance (row : Row) : Decidable (RowEmpty row) := by
  unfold RowEmpty; infer_instance

/-! ### Closed forms used in the proofs about `Clean` -/

/-- What the Excel check of lines 116-118 makes of one cell. -/
def excelCell (cell : Cell) : Cell :=
  if cell.length > EXCEL_CELL_CHAR_LIMIT then cell.take EXCEL_CELL_CHAR_LIMIT else cell

/-- The row written for `row`: normalized, and with the Excel limit applied when asked. -/
def outRow (width : Nat) (excel : Bool) (row : Row) : Row :=
  if excel = true then (normalizeRow width row).map excelCell else normalizeRow width row

/-- How many of `count` rows, the first of them at index `i`, the second loop writes before
it stops. -/
def emitCount (trimFromIndex : Int) (noTrim numbers : Bool) (count i : Nat) : Nat :=
  min (if numbers = true then (NUMBERS_ROW_LIMIT - i).toNat else count)
      (if noTrim = false ∧ trimFromIndex > -1 then (trimFromIndex - i).toNat else count)

/-! ### Test data for `clean` -/

/-- The example of the specification: `["a","b"], ["c"], ["",""]`. -/
def specExample : List Row := [[ascii "a", ascii "b"], [ascii "c"], [[], []]]

/-- A rectangular dataset whose last column is empty in every row: `["a",""], ["b",""]`. -/
def trailingEmptyColumn : List Row := [[ascii "a", []], [ascii "b", []]]

/-- A rectangular dataset whose last column is in use: `["a","b"], ["","c"]`. -/
def fullColumns : List Row := [[ascii "a", ascii "b"], [[], ascii "c"]]

/-- A ragged dataset whose last row is not empty: `["a"], [], ["b"]`. -/
def raggedRows : List Row := [[ascii "a"], [], [ascii "b"]]

/-! ## view.go -/

/-- The search loop of `strings.Index(cell, "\n")` from byte index `i`: the index of the first
line break (byte 10) at or after `i`, or `-1` when there is none. -/
def indexOfNewlineFrom : Cell → Nat → Int
  | [], _ => -1
  | b :: rest, i => if b = 10 then (i : Int) else indexOfNewlineFrom rest (i + 1)

/-- Go's `strings.Index(cell, "\n")`: the index of the first instance of the line break in
`cell`, or `-1` if it is not present. -/
def stringsIndexNewline (cell : Cell) : Int := indexOfNewlineFrom cell 0

/-- Lines 11-18 of view.go. -/
def getCellWidth (cell : Cell) : Int :=
  let indexOfNewline := stringsIndexNewline cell
  if indexOfNewline > -1 then indexOfNewline + 1 else (cell.length : Int)

/-- Lines 20-35 of view.go. `strings.Repeat` is only reached with a positive count; the slice
`lineString[:width-3]` is reached with `width < len(lineString)` and is out of range, a
run-time panic, exactly when `width - 3` is negative. -/
def getTruncatedAndPaddedCell (cell : Cell) (width : Int) : Option Cell :=
  let indexOfNewline := stringsIndexNewline cell
  let lineString := if indexOfNewline > -1 then cell.take indexOfNewline.toNat else cell
  if (lineString.length : Int) = width then
    some lineString
  else if (lineString.length : Int) < width then
    some (lineString ++ List.replicate (width - lineString.length).toNat 32)
  else if width - 3 < 0 then
    none
  else
    some (lineString.take (width - 3).toNat ++ [46, 46, 46])

/-- Modelled from the spec: the type `InMemoryCsv` and its constructor `NewInMemoryCsv` are
declared outside the two source files. The dataset is split into the Header (row 0) and the
DataRows (the remainder). -/
structure InMemoryCsv where
  header : Row
  rows : List Row

/-- Modelled from the spec: `imc.NumColumns()`, declared with `InMemoryCsv`; the ColumnWidth
array has one entry per Header cell. -/
def InMemoryCsv.NumColumns (imc : InMemoryCsv) : Int := (imc.header.length : Int)

/-- Modelled from the spec: `imc.NumRows()`, declared with `InMemoryCsv`; the number of
DataRows. -/
def InMemoryCsv.NumRows (imc : InMemoryCsv) : Int := (imc.rows.length : Int)

/-- Lines 58-65 of view.go: the body of the header loop for cell `j`. -/
def headerStep (maxWidth : Int) (columnWidths : List Int) (j : Nat) (cell : Cell) :
    Option (List Int) :=
  let cellLength := getCellWidth cell
  match columnWidths[j]? with
  | none => none
  | some current =>
    if cellLength > current then
      if cellLength > maxWidth then some (columnWidths.set j maxWidth)
      else some (columnWidths.set j cellLength)
    else some columnWidths

/-- Lines 77-87 of view.go: the body of the inner data loop for cell `j`. -/
def dataStep (maxWidth : Int) (columnWidths : List Int) (j : Nat) (cell : Cell) :
    Option (List Int) :=
  match columnWidths[j]? with
  | none => none
  | some current =>
    if current = maxWidth then some columnWidths
    else
      let cellLength := getCellWidth cell
      if cellLength > current then
        if cellLength > maxWidth then some (columnWidths.set j maxWidth)
        else some (columnWidths.set j cellLength)
      else some columnWidths

/-- A loop `for j, cell := range row { body }` over the cells of a row, started at cell
index `j`, threading `columnWidths` through `body`. -/
def rangeLoop (body : List Int → Nat → Cell → Option (List Int)) :
    Row → Nat → List Int → Option (List Int)
  | [], _, columnWidths => some columnWidths
  | cell :: rest, j, columnWidths =>
    match body columnWidths j cell with
    | none => none
    | some next => rangeLoop body rest (j + 1) next

/-- Lines 74-89 of view.go: `for i := 0; i < numRowsToView; i++`, started at row index `i`;
the first argument is the number of iterations left, `numRowsToView - i`. -/
def dataLoop (maxWidth : Int) (rows : List Row) : Nat → Nat → List Int → Option (List Int)
  | 0, _, columnWidths => some columnWidths
  | n + 1, i, columnWidths =>
    match rows[i]? with
    | none => none
    | some row =>
      match rangeLoop (dataStep maxWidth) row 0 columnWidths with
      | none => none
      | some next => dataLoop maxWidth rows n (i + 1) next

/-- Lines 69-72 of view.go. -/
def numRowsToView (imc : InMemoryCsv) (maxRows : Int) : Int :=
  let numRowsToView := imc.NumRows
  if maxRows > 0 ∧ maxRows < numRowsToView then maxRows else numRowsToView

/-- Lines 56-89 of view.go: the column widths `View` computes, from
`make([]int, imc.NumColumns())`. -/
def viewColumnWidths (imc : InMemoryCsv) (maxWidth maxRows : Int) : Option (List Int) :=
  let columnWidths : List Int := List.replicate imc.NumColumns.toNat 0
  match rangeLoop (headerStep maxWidth) imc.header 0 columnWidths with
  | none => none
  | some afterHeader =>
    dataLoop maxWidth imc.rows (numRowsToView imc maxRows).toNat 0 afterHeader

/-! ### The width computation, step by step -/

/-- The values `columnWidths` takes in a loop `for j, cell := range row { body }`: the array
after each cell, in order. -/
def rangeTrace (body : List Int → Nat → Cell → Option (List Int)) :
    Row → Nat → List Int → Option (List (List Int))
  | [], _, _ => some []
  | cell :: rest, j, columnWidths =>
    match body columnWidths j cell with
    | none => none
    | some next =>
      match rangeTrace body rest (j + 1) next with
      | none => none
      | some later => some (next :: later)

/-- The values `columnWidths` takes in the data loop: the array after each data cell scanned,
in order. -/
def dataTrace (maxWidth : Int) (rows : List Row) : Nat → Nat → List Int → Option (List (List Int))
  | 0, _, _ => some []
  | n + 1, i, columnWidths =>
    match rows[i]? with
    | none => none
    | some row =>
      match rangeTrace (dataStep maxWidth) row 0 columnWidths with
      | none => none
      | some inRow =>
        match dataTrace maxWidth rows n (i + 1) (inRow.getLastD columnWidths) with
        | none => none
        | some later => some (inRow ++ later)

/-- Every value `columnWidths` takes in `View`: the initial array, then the array after each
header cell, then the array after each data cell scanned. -/
def viewColumnWidthsTrace (imc : InMemoryCsv) (maxWidth maxRows : Int) :
    Option (List (List Int)) :=
  let columnWidths : List Int := List.replicate imc.NumColumns.toNat 0
  match rangeTrace (headerStep maxWidth) imc.header 0 columnWidths with
  | none => none
  | some inHeader =>
    match dataTrace maxWidth imc.rows (numRowsToView imc maxRows).toNat 0
        (inHeader.getLastD columnWidths) with
    | none => none
    | some inData => some (columnWidths :: (inHeader ++ inData))

/-- A bound on every entry of a width array. -/
def WidthsBounded (maxWidth : Int) (columnWidths : List Int) : Prop :=
  ∀ x ∈ columnWidths, x ≤ maxWidth

/-- One width array is, column by column, at most another of the same length. -/
def WidthsLe (before after : List Int) : Prop := List.Forall₂ (fun a b => a ≤ b) before after

/-- A loop body that never fails on a column of the array, never lowers a width and keeps
every width within the bound. -/
def GoodStep (m : Int) (body : List Int → Nat → Cell → Option (List Int)) : Prop :=
  ∀ cw j cell, j < cw.length → WidthsBounded m cw →
    ∃ next, body cw j cell = some next ∧ WidthsLe cw next ∧ WidthsBounded m next

/-! ### Test data for `view` -/

/-- The cell `"line1\nline2"`. -/
def twoLineCell : Cell := ascii "line1" ++ [10] ++ ascii "line2"

/-- The example of the specification: header `["Name","Note"]`, one data row
`["Al","line1\nline2"]`. -/
def noteExample : InMemoryCsv :=
  { header := [ascii "Name", ascii "Note"], rows := [[ascii "Al", twoLineCell]] }

/-! ### Rendering (lines 37-49 and 91-108 of view.go) -/

/-- Go's `strings.Repeat` of a one-byte string: `count` copies of the byte `b`; a negative
count is a run-time panic. -/
def stringsRepeat (b : Nat) (count : Int) : Option Cell :=
  if count < 0 then none else some (List.replicate count.toNat b)

/-- Go's `strings.Join(elems, sep)`: the elements concatenated, `sep` between each two. -/
def stringsJoin (sep : Cell) : List Cell → Cell
  | [] => []
  | x :: rest =>
    match rest with
    | [] => x
    | _ :: _ => x ++ sep ++ stringsJoin sep rest

/-- Lines 44-47 of view.go: `cells[i] = strings.Repeat("-", width)` for each width in order. -/
def separatorCells : List Int → Option (List Cell)
  | [] => some []
  | width :: rest =>
    match stringsRepeat 45 width with
    | none => none
    | some dashes =>
      match separatorCells rest with
      | none => none
      | some cells => some (dashes :: cells)

/-- Lines 43-49 of view.go: `fmt.Sprintf("+-%s-+", strings.Join(cells, "-+-"))`. -/
def getRowSeparator (widths : List Int) : Option Cell :=
  match separatorCells widths with
  | none => none
  | some cells => some ([43, 45] ++ stringsJoin [45, 43, 45] cells ++ [45, 43])

/-- Lines 38-40 of view.go: `for i, cell := range row { outrow[i] = ... widths[i] ... }`,
started at cell index `i`; `outrow` is the caller's slice, written in place. -/
def copyLoop (widths : List Int) : Row → Nat → Row → Option Row
  | [], _, outrow => some outrow
  | cell :: rest, i, outrow =>
    match widths[i]? with
    | none => none
    | some width =>
      match getTruncatedAndPaddedCell cell width with
      | none => none
      | some formatted =>
        if i < outrow.length then copyLoop widths rest (i + 1) (outrow.set i formatted)
        else none

/-- Lines 37-41 of view.go; the result is the contents of `outrow` after the call. -/
def copyTruncatedAndPaddedCellToOutputRow (outrow row : Row) (widths : List Int) :
    Option Row :=
  copyLoop widths row 0 outrow

/-- The line printed by `fmt.Printf("| %s |\n", strings.Join(outrow, " | "))`, without its
final line break. -/
def formatLine (outrow : Row) : Cell := [124, 32] ++ stringsJoin [32, 124, 32] outrow ++ [32, 124]

/-- Lines 103-108 of view.go: `for i := 0; i < numRowsToView; i++`, started at row index `i`
with the current contents of `outrow`; the first argument is the number of iterations left.
The result is the list of lines printed. -/
def printRows (rows : List Row) (columnWidths : List Int) (rowSeparator : Cell) :
    Nat → Nat → Row → Option (List Cell)
  | 0, _, _ => some []
  | n + 1, i, outrow =>
    match rows[i]? with
    | none => none
    | some row =>
      match copyTruncatedAndPaddedCellToOutputRow outrow row columnWidths with
      | none => none
      | some written =>
        match printRows rows columnWidths rowSeparator n (i + 1) written with
        | none => none
        | some later => some (formatLine written :: rowSeparator :: later)

/-- `View` of view.go on the dataset read from the input: the lines it prints, in order, each
without its final line break; `none` when the run panics. -/
def View (imc : InMemoryCsv) (maxWidth maxRows : Int) : Option (List Cell) :=
  match viewColumnWidths imc maxWidth maxRows with
  | none => none
  | some columnWidths =>
    match getRowSeparator columnWidths with
    | none => none
    | some rowSeparator =>
      let outrow : Row := List.replicate imc.NumColumns.toNat []
      match copyTruncatedAndPaddedCellToOutputRow outrow imc.header columnWidths with
      | none => none
      | some headerRow =>
        match printRows imc.rows columnWidths rowSeparator
            (numRowsToView imc maxRows).toNat 0 headerRow with
        | none => none
        | some dataLines =>
          some (rowSeparator :: formatLine headerRow :: rowSeparator :: dataLines)

/-! ### Reference description of `view`, in the words of the specification -/

/-- The first line of a cell: the text before its first line break, the whole cell when it
has none. -/
def firstLine (cell : Cell) : Cell := cell.takeWhile (fun b => decide (b ≠ 10))

/-- The number of data rows shown: `min(maxRows, n)` if `maxRows > 0`, else all `n`. -/
def rowsToShow (n : Nat) (maxRows : Int) : Nat :=
  if maxRows > 0 then min maxRows.toNat n else n

/-- The maximum of `getCellWidth` over cell `j` of the header and cell `j` of each of the
rows `shown`. -/
def maxCellWidth (header : Row) (shown : List Row) (j : Nat) : Int :=
  shown.foldl (fun acc row => max acc (getCellWidth (row.getD j []))) (getCellWidth (header.getD j []))

/-- The closed form of the column widths: for each header column `j`,
`min(maxWidth, max cell width seen in column j)`. -/
def closedFormWidths (header : Row) (shown : List Row) (maxWidth : Int) : List Int :=
  (List.range header.length).map (fun j => min maxWidth (maxCellWidth header shown j))

/-- A cell formatted to the width `w`: as it is when its length is `w`, right-padded with
spaces when shorter, cut to its first `w - 3` bytes followed by `...` when longer. -/
def formatTo (line : Cell) (w : Nat) : Cell :=
  if line.length = w then line
  else if line.length < w then line ++ List.replicate (w - line.length) 32
  else line.take (w - 3) ++ ascii "..."

/-! ### Further definitions used in the statements and proofs about `view` -/

/-- The width of a column after one more cell: `min(maxWidth, max(width, getCellWidth cell))`. -/
def widen (m : Int) (w : Int) (cell : Cell) : Int := min m (max w (getCellWidth cell))

/-- A loop body that, on a column whose width is within the bound, replaces that width by
`widen` of it and leaves the other columns alone. -/
def StepWidens (m : Int) (body : List Int → Nat → Cell → Option (List Int)) : Prop :=
  ∀ (pre : List Int) (w : Int) (suf : List Int) (cell : Cell), w ≤ m →
    body (pre ++ w :: suf) pre.length cell = some (pre ++ widen m w cell :: suf)

/-- The width array in which column `j` holds `min(m, g j)`. -/
def cappedWidths (m : Int) (n : Nat) (g : Nat → Int) : List Int :=
  (List.range n).map (fun j => min m (g j))

/-- The cell fits the width: the width is not negative, and is at least 3 or at least the
length of the cell's first line, so that formatting the cell to it is defined. -/
def Fits (cell : Cell) (w : Int) : Prop :=
  0 ≤ w ∧ (3 ≤ w ∨ ((firstLine cell).length : Int) ≤ w)

/-- A row formatted cell by cell to the column widths. -/
def formatRow (widths : List Int) (row : Row) : Row :=
  List.zipWith (fun cell w => formatTo (firstLine cell) w.toNat) row widths

/-- The border line for the column widths: `+-`, one run of dashes per column joined by
`-+-`, then `-+`. -/
def borderLine (widths : List Int) : Cell :=
  ascii "+-" ++ stringsJoin (ascii "-+-") (widths.map (fun w => List.replicate w.toNat 45)) ++
    ascii "-+"

/-- The line of a formatted row: `| `, the cells joined by ` | `, then ` |`. -/
def rowLine (widths : List Int) (row : Row) : Cell :=
  ascii "| " ++ stringsJoin (ascii " | ") (formatRow widths row) ++ ascii " |"

/-- The lines of the data rows: for each row in order, its line followed by the border. -/
def dataLines (widths : List Int) : List Row → List Cell
  | [] => []
  | row :: rest => rowLine widths row :: borderLine widths :: dataLines widths rest

/-- A dataset with a row longer than the canonical width: `["a","b",""], ["c"]`. -/
def wideRows : List Row := [[ascii "a", ascii "b", []], [ascii "c"]]

/-- A dataset with a data row longer than the header: header `["a"]`, data row `["b","c"]`. -/
def longDataRow : InMemoryCsv := { header := [ascii "a"], rows := [[ascii "b", ascii "c"]] }

/-- A dataset with a header cell longer than the width 2: header `["abc"]`, no data row. -/
def longHeaderCell : InMemoryCsv := { header := [ascii "abc"], rows := [] }

/-! ## The CSV writer and reader between two runs of `clean` -/

/-- A byte that `encoding/csv` writes without quotes and reads back as it is: printable ASCII
other than the space, the comma, the double quote and the backslash. -/
def plainByte (b : Nat) : Bool := decide (33 ≤ b ∧ b ≤ 126 ∧ b ≠ 44 ∧ b ≠ 34 ∧ b ≠ 92)

/-- A cell made of plain bytes only (the empty cell included): a field that `csv.Writer`
writes as it is, without quotes. -/
def plainCell (cell : Cell) : Bool := cell.all plainByte

/-- The text `csv.Writer` writes for records of plain cells: for each record its fields
separated by commas, then a line break. A record of no field, or of one empty field, is
written as a blank line. -/
def recordsText : List Row → Cell
  | [] => []
  | record :: rest => stringsJoin [44] record ++ [10] ++ recordsText rest

/-- `csv.Writer.Write` on each record in turn followed by `Flush`, as `Clean` calls them, for
records of plain cells; `none` when a field would need quotes, which is not modelled. -/
def csvWriteAll (records : List Row) : Option Cell :=
  if records.all (fun record => record.all plainCell) then some (recordsText records)
  else none

/-- The pieces of a text between the occurrences of the byte `sep`. -/
def splitBytes (sep : Nat) : Cell → List Cell
  | [] => [[]]
  | b :: rest =>
    if b = sep then [] :: splitBytes sep rest
    else
      match splitBytes sep rest with
      | [] => [[b]]
      | piece :: pieces => (b :: piece) :: pieces

/-- `csv.Reader.ReadAll` with `FieldsPerRecord = -1`, as `Clean` sets it, on a text of plain
bytes, commas and line breaks: one record per line that is not blank, its fields the pieces
between the commas; blank lines are skipped. `none` on any other byte (quotes and carriage
returns are not modelled). -/
def csvReadAll (text : Cell) : Option (List Row) :=
  if text.all (fun b => plainByte b || decide (b = 44) || decide (b = 10)) then
    some (((splitBytes 10 text).filter (fun line => decide (line ≠ []))).map (splitBytes 44))
  else none

/-- The text `a,\n,\nb,\n`: three lines of two fields each. -/
def blankLineText : Cell := ascii "a," ++ [10] ++ ascii "," ++ [10] ++ ascii "b," ++ [10]

/-- The rows read from `blankLineText`: `["a",""], ["",""], ["b",""]`. -/
def blankLineRows : List Row := [[ascii "a", []], [[], []], [ascii "b", []]]

/-- A dataset with a data row shorter than the header: header `["a","bb"]`, data row
`["b"]`. -/
def shortDataRow : InMemoryCsv := { header := [ascii "a", ascii "bb"], rows := [[ascii "b"]] }

/-! ## Lemmas about the first pass of `Clean` -/

theorem lastNonEmptyLoop_spec (row : Row) (j : Nat) (acc : Int) :
    (RowEmpty row ∧ lastNonEmptyLoop row j acc = acc) ∨
    (∃ k c, row[k]? = some c ∧ c ≠ [] ∧ (∀ m c', k < m → row[m]? = some c' → c' = []) ∧
      lastNonEmptyLoop row j acc = ((j + k : Nat) : Int)) := by
  induction row generalizing j acc with
  | nil => left; exact ⟨(by intro c hc; cases hc), rfl⟩
  | cons elem rest ih =>
    rcases ih (j + 1) (if elem ≠ [] then (j : Int) else acc) with ⟨hE, hR⟩ | ⟨k, c, hk, hc, hlater, hR⟩
    · by_cases he : elem = []
      · left
        refine ⟨?_, ?_⟩
        · intro c hc
          rcases List.mem_cons.1 hc with h | h
          · exact h.trans he
          · exact hE c h
        · simp only [lastNonEmptyLoop]; rw [hR]; simp [he]
      · right
        refine ⟨0, elem, by simp, he, ?_, ?_⟩
        · intro m c' hm hget
          cases m with
          | zero => omega
          | succ m =>
            simp only [List.getElem?_cons_succ] at hget
            exact hE c' (List.getElem?_mem hget)
        · simp only [lastNonEmptyLoop]; rw [hR]; simp [he]
    · right
      refine ⟨k + 1, c, by simpa using hk, hc, ?_, ?_⟩
      · intro m c' hm hget
        cases m with
        | zero => omega
        | succ m =>
          simp only [List.getElem?_cons_succ] at hget
          exact hlater m c' (by omega) hget
      · simp only [lastNonEmptyLoop]; rw [hR]; push_cast; ring


/-- The width a single row asks for: `lastNonEmptyIndex + 1`. -/
theorem scanStep_numColumns (s : ScanState) (i : Nat) (row : Row) :
    (scanStep s i row).numColumns = max s.numColumns (lastNonEmptyLoop row 0 (-1) + 1) := by
  simp only [scanStep]
  split <;> omega

theorem scanLoop_append (rows : List Row) (row : Row) (i : Nat) (s : ScanState) :
    scanLoop (rows ++ [row]) i s = scanStep (scanLoop rows i s) (i + rows.length) row := by
  induction rows generalizing i s with
  | nil => simp [scanLoop]
  | cons r rest ih =>
    have h := ih (i + 1) (scanStep s i r)
    rw [show i + 1 + rest.length = i + (rest.length + 1) by omega] at h
    simpa [scanLoop] using h

theorem scanLoop_numColumns_ge (rows : List Row) (i : Nat) (s : ScanState) :
    s.numColumns ≤ (scanLoop rows i s).numColumns := by
  induction rows generalizing i s with
  | nil => simp [scanLoop]
  | cons r rest ih =>
    simp only [scanLoop]
    have := ih (i + 1) (scanStep s i r)
    rw [scanStep_numColumns] at this
    omega

theorem scanLoop_numColumns_upper (rows : List Row) (i : Nat) (s : ScanState) :
    ∀ row ∈ rows, lastNonEmptyLoop row 0 (-1) + 1 ≤ (scanLoop rows i s).numColumns := by
  induction rows generalizing i s with
  | nil => intro row h; cases h
  | cons r rest ih =>
    intro row h
    simp only [scanLoop]
    rcases List.mem_cons.1 h with h | h
    · subst h
      have := scanLoop_numColumns_ge rest (i + 1) (scanStep s i row)
      rw [scanStep_numColumns] at this
      omega
    · exact ih (i + 1) _ row h

theorem scanLoop_numColumns_attained (rows : List Row) (i : Nat) (s : ScanState) :
    (scanLoop rows i s).numColumns = s.numColumns ∨
    ∃ row ∈ rows, (scanLoop rows i s).numColumns = lastNonEmptyLoop row 0 (-1) + 1 := by
  induction rows generalizing i s with
  | nil => left; rfl
  | cons r rest ih =>
    simp only [scanLoop]
    rcases ih (i + 1) (scanStep s i r) with h | ⟨row, hrow, h⟩
    · rw [h, scanStep_numColumns]
      rcases max_cases s.numColumns (lastNonEmptyLoop r 0 (-1) + 1) with ⟨hm, _⟩ | ⟨hm, _⟩
      · left; exact hm
      · right; exact ⟨r, List.mem_cons_self _ _, hm⟩
    · right; exact ⟨row, List.mem_cons_of_mem _ hrow, h⟩

theorem numColumns_nonneg (rows : List Row) : 0 ≤ numColumns rows :=
  scanLoop_numColumns_ge rows 0 _


theorem lastNonEmptyLoop_of_empty (row : Row) (h : RowEmpty row) :
    lastNonEmptyLoop row 0 (-1) = -1 := by
  rcases lastNonEmptyLoop_spec row 0 (-1) with ⟨_, hR⟩ | ⟨k, c, hk, hc, _, _⟩
  · exact hR
  · exact absurd (h c (List.getElem?_mem hk)) hc

theorem lastNonEmptyLoop_of_nonempty (row : Row) (h : ¬ RowEmpty row) :
    lastNonEmptyLoop row 0 (-1) > -1 := by
  rcases lastNonEmptyLoop_spec row 0 (-1) with ⟨hE, _⟩ | ⟨k, c, _, _, _, hR⟩
  · exact absurd hE h
  · rw [hR]; omega

theorem scanStep_trim_nonempty (s : ScanState) (i : Nat) (row : Row) (h : ¬ RowEmpty row) :
    (scanStep s i row).trimFromIndex = -1 := by
  have := lastNonEmptyLoop_of_nonempty row h
  simp [scanStep, this]

theorem scanStep_trim_empty (s : ScanState) (i : Nat) (row : Row) (h : RowEmpty row) :
    (scanStep s i row).trimFromIndex = if s.trimFromIndex = -1 then (i : Int) else s.trimFromIndex := by
  have := lastNonEmptyLoop_of_empty row h
  simp [scanStep, this]

/-- The cutoff after the first pass, described from the rows. -/
theorem trimFromIndex_spec (rows : List Row) :
    (trimFromIndex rows = -1 ∧ (rows = [] ∨ ∃ last, rows.getLast? = some last ∧ ¬ RowEmpty last)) ∨
    (∃ k : Nat, trimFromIndex rows = (k : Int) ∧ k < rows.length ∧
      (∀ i row, k ≤ i → rows[i]? = some row → RowEmpty row) ∧
      (k = 0 ∨ ∃ row, rows[k - 1]? = some row ∧ ¬ RowEmpty row)) := by
  induction rows using List.reverseRecOn with
  | nil => left; exact ⟨rfl, Or.inl rfl⟩
  | append_singleton rows r ih =>
    have hstep : trimFromIndex (rows ++ [r]) =
        (scanStep (scan rows) rows.length r).trimFromIndex := by
      simp [trimFromIndex, scan, scanLoop_append]
    by_cases hr : RowEmpty r
    · right
      rw [hstep, scanStep_trim_empty _ _ _ hr]
      have hidx : ∀ i row, rows.length ≤ i → (rows ++ [r])[i]? = some row → RowEmpty row := by
        intro i row hi hget
        rw [List.getElem?_append_right hi] at hget
        have : row ∈ [r] := List.getElem?_mem hget
        rw [List.mem_singleton.1 this]; exact hr
      rcases ih with ⟨ht, hcase⟩ | ⟨k, ht, hk, hall, hprev⟩
      · change (scan rows).trimFromIndex = -1 at ht
        refine ⟨rows.length, by simp [ht], by simp, hidx, ?_⟩
        rcases hcase with hnil | ⟨last, hlast, hne⟩
        · left; simp [hnil]
        · right
          refine ⟨last, ?_, hne⟩
          have hpos : 0 < rows.length := by
            cases rows with
            | nil => simp at hlast
            | cons a l => simp
          rw [List.getElem?_append_left (by omega), ← List.getLast?_eq_getElem?]
          exact hlast
      · change (scan rows).trimFromIndex = (k : Int) at ht
        refine ⟨k, ?_, by simp; omega, ?_, ?_⟩
        · rw [ht]; split
          · omega
          · rfl
        · intro i row hi hget
          by_cases hlt : i < rows.length
          · rw [List.getElem?_append_left hlt] at hget
            exact hall i row hi hget
          · exact hidx i row (by omega) hget
        · rcases hprev with h0 | ⟨row, hrow, hne⟩
          · left; exact h0
          · right
            refine ⟨row, ?_, hne⟩
            rw [List.getElem?_append_left (by omega)]
            exact hrow
    · left
      rw [hstep, scanStep_trim_nonempty _ _ _ hr]
      exact ⟨rfl, Or.inr ⟨r, by simp, hr⟩⟩

/-! ## Lemmas about the second loop of `Clean` -/

theorem copy_length (dst src : Row) : (copy dst src).length = dst.length := by
  simp only [copy, List.length_append, List.length_take, List.length_drop]
  omega

theorem padLoop_append (n : Nat) (done rest : Row) (h : n ≤ rest.length) :
    padLoop n done.length (done ++ rest) = done ++ List.replicate n [] ++ rest.drop n := by
  induction n generalizing done rest with
  | zero => simp [padLoop]
  | succ n ih =>
    cases rest with
    | nil => simp at h
    | cons x rest =>
      have hset : (done ++ x :: rest).set done.length [] = (done ++ [[]]) ++ rest := by
        rw [List.set_append_right _ _ (Nat.le_refl _)]
        simp
      have hlen : done.length + 1 = (done ++ [([] : Cell)]).length := by simp
      simp only [padLoop]
      rw [hset, hlen, ih (done ++ [[]]) rest (by simpa using h)]
      simp [List.replicate_succ]

theorem fixRow_eq (n : Nat) (shellRow row : Row) (h : shellRow.length = n) :
    fixRow (n : Int) shellRow row = normalizeRow n row := by
  unfold fixRow normalizeRow
  by_cases h1 : row.length = n
  · simp [h1, copy, h]
  · by_cases h2 : row.length < n
    · have e : ((n : Int) - (row.length : Int)).toNat = n - row.length := by omega
      simp only [Nat.cast_inj, h1, if_false, Nat.cast_lt, h2, if_true, e, copy, h]
      rw [List.take_of_length_le (by omega : row.length ≤ n)]
      rw [padLoop_append _ _ _ (by simp; omega)]
      rw [List.drop_of_length_le (by simp; omega)]
      simp
    · simp only [Nat.cast_inj, h1, if_false, Nat.cast_lt, h2, copy, h]
      rw [List.drop_of_length_le (by omega), show n - row.length = 0 by omega]
      simp

theorem normalizeRow_length (n : Nat) (row : Row) : (normalizeRow n row).length = n := by
  simp only [normalizeRow, List.length_append, List.length_take, List.length_replicate]
  omega

theorem excelLoop_getElem? (n j : Nat) (shellRow : Row) (m : Nat) :
    (excelLoop n j shellRow)[m]? =
      if j ≤ m ∧ m < j + n then shellRow[m]?.map excelCell else shellRow[m]? := by
  induction n generalizing j shellRow with
  | zero =>
    simp only [excelLoop, Nat.add_zero]
    rw [if_neg (by omega)]
  | succ n ih =>
    unfold excelLoop
    cases hj : shellRow[j]? with
    | none =>
      simp only
      split
      · have : shellRow.length ≤ m := by
          have := List.getElem?_eq_none_iff.1 hj
          omega
        rw [List.getElem?_eq_none this]; rfl
      · rfl
    | some cell =>
      have hstep : ∀ k, (if cell.length > EXCEL_CELL_CHAR_LIMIT
            then shellRow.set j (cell.take EXCEL_CELL_CHAR_LIMIT) else shellRow)[k]? =
          if k = j then some (excelCell cell) else shellRow[k]? := by
        intro k
        by_cases hk : k = j
        · subst hk
          have hlt : k < shellRow.length := (List.getElem?_eq_some_iff.1 hj).1
          by_cases hc : cell.length > EXCEL_CELL_CHAR_LIMIT
          · simp [hc, excelCell, hlt]
          · simp [hc, excelCell, hj]
        · by_cases hc : cell.length > EXCEL_CELL_CHAR_LIMIT
          · simp [hc, hk, List.getElem?_set_ne (Ne.symm hk)]
          · simp [hc, hk]
      have hres : excelLoop n (j + 1) (if cell.length > EXCEL_CELL_CHAR_LIMIT
            then shellRow.set j (cell.take EXCEL_CELL_CHAR_LIMIT) else shellRow) =
          (if cell.length > EXCEL_CELL_CHAR_LIMIT
            then excelLoop n (j + 1) (shellRow.set j (cell.take EXCEL_CELL_CHAR_LIMIT))
            else excelLoop n (j + 1) shellRow) := by
        split <;> rfl
      simp only
      rw [← hres, ih, hstep]
      by_cases h1 : m = j
      · subst h1
        have : ¬ (m + 1 ≤ m ∧ m < m + 1 + n) := by omega
        simp [this, hj]
      · by_cases h2 : j + 1 ≤ m ∧ m < j + 1 + n
        · have : j ≤ m ∧ m < j + (n + 1) := by omega
          simp [h1, h2, this]
        · have : ¬ (j ≤ m ∧ m < j + (n + 1)) := by omega
          simp [h1, h2, this]

theorem excelLoop_eq_map (shellRow : Row) :
    excelLoop shellRow.length 0 shellRow = shellRow.map excelCell := by
  apply List.ext_getElem?
  intro m
  rw [excelLoop_getElem?, List.getElem?_map]
  by_cases h : m < shellRow.length
  · simp [h]
  · have : shellRow.length ≤ m := by omega
    simp [h, List.getElem?_eq_none this]


theorem outRow_length (n : Nat) (excel : Bool) (row : Row) : (outRow n excel row).length = n := by
  unfold outRow
  split <;> simp [normalizeRow_length]

theorem emitCount_stop_numbers (t : Int) (noTrim : Bool) (count i : Nat)
    (h : (i : Int) ≥ NUMBERS_ROW_LIMIT) : emitCount t noTrim true count i = 0 := by
  unfold emitCount NUMBERS_ROW_LIMIT at *
  simp only [if_true]
  omega

theorem emitCount_stop_trim (t : Int) (numbers : Bool) (count i : Nat)
    (h1 : t > -1) (h2 : (i : Int) ≥ t) : emitCount t false numbers count i = 0 := by
  unfold emitCount
  have : (t - (i : Int)).toNat = 0 := by omega
  simp [h1, this]

theorem emitCount_succ (t : Int) (noTrim numbers : Bool) (count i : Nat)
    (h1 : ¬ (numbers = true ∧ (i : Int) ≥ NUMBERS_ROW_LIMIT))
    (h2 : ¬ (noTrim = false ∧ t > -1 ∧ (i : Int) ≥ t)) :
    emitCount t noTrim numbers (count + 1) i = emitCount t noTrim numbers count (i + 1) + 1 := by
  unfold emitCount NUMBERS_ROW_LIMIT at *
  cases numbers <;> cases noTrim <;> simp at h1 h2 ⊢ <;> (try split_ifs) <;> omega

/-- The second loop, in closed form: whatever the scratch row holds on entry, the rows
written are the normalized images of the rows met before the loop stops. -/
theorem emitLoop_eq (n : Nat) (t : Int) (noTrim excel numbers : Bool) (rows : List Row)
    (i : Nat) (shellRow : Row) (h : shellRow.length = n) :
    emitLoop (n : Int) t noTrim excel numbers rows i shellRow =
      (rows.take (emitCount t noTrim numbers rows.length i)).map (outRow n excel) := by
  induction rows generalizing i shellRow with
  | nil => simp [emitLoop]
  | cons row rest ih =>
    unfold emitLoop
    by_cases h1 : numbers = true ∧ (i : Int) ≥ NUMBERS_ROW_LIMIT
    · rw [if_pos h1]
      obtain ⟨hn, hi⟩ := h1
      subst hn
      rw [emitCount_stop_numbers _ _ _ _ hi]
      rfl
    · rw [if_neg h1]
      by_cases h2 : noTrim = false ∧ t > -1 ∧ (i : Int) ≥ t
      · rw [if_pos h2]
        obtain ⟨hn, ht, hi⟩ := h2
        subst hn
        rw [emitCount_stop_trim _ _ _ _ ht hi]
        rfl
      · rw [if_neg h2]
        have hout : (if excel = true then
              excelLoop (fixRow (n : Int) shellRow row).length 0 (fixRow (n : Int) shellRow row)
            else fixRow (n : Int) shellRow row) = outRow n excel row := by
          rw [excelLoop_eq_map, fixRow_eq n shellRow row h]
          rfl
        simp only [hout]
        rw [ih (i + 1) (outRow n excel row) (outRow_length n excel row)]
        rw [List.length_cons, emitCount_succ _ _ _ _ _ h1 h2]
        rfl

theorem Clean_eq (rows : List Row) (noTrim excel numbers : Bool) :
    Clean rows noTrim excel numbers =
      (rows.take (emitCount (trimFromIndex rows) noTrim numbers rows.length 0)).map
        (outRow (numColumns rows).toNat excel) := by
  have hnn : (((numColumns rows).toNat : Nat) : Int) = numColumns rows :=
    Int.toNat_of_nonneg (numColumns_nonneg rows)
  have := emitLoop_eq (numColumns rows).toNat (trimFromIndex rows) noTrim excel numbers rows 0
    (List.replicate (numColumns rows).toNat []) (by simp)
  rw [hnn] at this
  exact this

theorem normalizeRow_of_length (n : Nat) (row : Row) (h : row.length = n) :
    normalizeRow n row = row := by
  simp [normalizeRow, h]

theorem trimFromIndex_of_last (rows : List Row)
    (h : ∀ last, rows.getLast? = some last → ¬ RowEmpty last) : trimFromIndex rows = -1 := by
  rcases trimFromIndex_spec rows with ⟨ht, _⟩ | ⟨k, _, hk, hall, _⟩
  · exact ht
  · exfalso
    have hget : rows.getLast? = rows[rows.length - 1]? := List.getLast?_eq_getElem? rows
    have hlt : rows.length - 1 < rows.length := by omega
    have hsome : rows[rows.length - 1]? = some (rows[rows.length - 1]) :=
      List.getElem?_eq_getElem hlt
    exact h _ (hget.trans hsome) (hall _ _ (by omega) hsome)

theorem trimFromIndex_ge (rows : List Row) : -1 ≤ trimFromIndex rows := by
  rcases trimFromIndex_spec rows with ⟨ht, _⟩ | ⟨k, ht, _⟩ <;> omega

theorem take_emitCount_numbers (t : Int) (noTrim : Bool) (rows : List Row) :
    rows.take (emitCount t noTrim true rows.length 0) =
      (rows.take (emitCount t noTrim false rows.length 0)).take 65535 := by
  rw [List.take_take, List.take_eq_take]
  unfold emitCount NUMBERS_ROW_LIMIT
  simp only [if_true, Bool.false_eq_true, if_false]
  omega

theorem numColumns_ge_of_cell (rows : List Row) :
    ∀ row ∈ rows, ∀ (j : Nat) (c : Cell), row[j]? = some c → c ≠ [] →
      (j : Int) + 1 ≤ numColumns rows := by
  intro row hrow j c hj hc
  have hup := scanLoop_numColumns_upper rows 0 { numColumns := 0, trimFromIndex := -1 } row hrow
  change lastNonEmptyLoop row 0 (-1) + 1 ≤ numColumns rows at hup
  rcases lastNonEmptyLoop_spec row 0 (-1) with ⟨hE, _⟩ | ⟨k, c', hk, _, hlater, hR⟩
  · exact absurd (hE c (List.getElem?_mem hj)) hc
  · have : j ≤ k := by
      by_contra hlt
      exact hc (hlater j c (by omega) hj)
    rw [hR] at hup
    push_cast at hup
    omega

theorem numColumns_zero_or_attained (rows : List Row) :
    numColumns rows = 0 ∨
      ∃ row ∈ rows, ∃ (j : Nat) (c : Cell), row[j]? = some c ∧ c ≠ [] ∧
        (∀ (m : Nat) (c' : Cell), j < m → row[m]? = some c' → c' = []) ∧
        numColumns rows = (j : Int) + 1 := by
  rcases scanLoop_numColumns_attained rows 0 { numColumns := 0, trimFromIndex := -1 } with
    h | ⟨row, hrow, h⟩
  · left; exact h
  · change numColumns rows = _ at h
    rcases lastNonEmptyLoop_spec row 0 (-1) with ⟨_, hR⟩ | ⟨k, c, hk, hc, hlater, hR⟩
    · left; rw [h, hR]; rfl
    · right
      refine ⟨row, hrow, k, c, hk, hc, hlater, ?_⟩
      rw [h, hR]; push_cast; omega

theorem numColumns_of_rectangular (rows : List Row) (w : Nat)
    (hrect : ∀ row ∈ rows, row.length = w)
    (hcol : ∃ row ∈ rows, ∃ c, row.getLast? = some c ∧ c ≠ []) :
    numColumns rows = (w : Int) := by
  apply le_antisymm
  · rcases numColumns_zero_or_attained rows with h | ⟨row, hrow, j, c, hj, _, _, h⟩
    · omega
    · have hlt : j < row.length := (List.getElem?_eq_some_iff.1 hj).1
      rw [hrect row hrow] at hlt
      omega
  · obtain ⟨row, hrow, c, hc, hne⟩ := hcol
    rw [List.getLast?_eq_getElem?, hrect row hrow] at hc
    have hlt : w - 1 < row.length := (List.getElem?_eq_some_iff.1 hc).1
    have := numColumns_ge_of_cell rows row hrow (w - 1) c hc hne
    rw [hrect row hrow] at hlt
    omega

theorem excelCell_length (c : Cell) : (excelCell c).length ≤ 32767 := by
  unfold excelCell EXCEL_CELL_CHAR_LIMIT
  split
  · simp only [List.length_take]; omega
  · omega

/-! ## Lemmas about the width computation of `View` -/

theorem widthsLe_refl (cw : List Int) : WidthsLe cw cw :=
  List.forall₂_same.2 (fun _ _ => le_refl _)

theorem widthsLe_set (cw : List Int) (j : Nat) (v : Int)
    (h : ∀ cur, cw[j]? = some cur → cur ≤ v) : WidthsLe cw (cw.set j v) := by
  induction cw generalizing j with
  | nil => exact List.Forall₂.nil
  | cons x rest ih =>
    cases j with
    | zero => exact List.Forall₂.cons (h x (by simp)) (widthsLe_refl rest)
    | succ j =>
      exact List.Forall₂.cons (le_refl x) (ih j (fun cur hc => h cur (by simpa using hc)))

theorem widthsBounded_set (m : Int) (cw : List Int) (j : Nat) (v : Int)
    (hb : WidthsBounded m cw) (hv : v ≤ m) : WidthsBounded m (cw.set j v) := by
  intro x hx
  rcases List.mem_or_eq_of_mem_set hx with h | h
  · exact hb x h
  · rw [h]; exact hv

theorem headerStep_good (m : Int) : GoodStep m (headerStep m) := by
  intro cw j cell hj hb
  have hget : cw[j]? = some cw[j] := List.getElem?_eq_getElem hj
  have hcur : cw[j] ≤ m := hb _ (List.getElem_mem hj)
  unfold headerStep
  simp only [hget]
  split_ifs with h1 h2
  · exact ⟨_, rfl, widthsLe_set cw j m (fun cur hc => by rw [hget] at hc; cases hc; exact hcur),
      widthsBounded_set m cw j m hb (le_refl m)⟩
  · exact ⟨_, rfl, widthsLe_set cw j _ (fun cur hc => by rw [hget] at hc; cases hc; omega),
      widthsBounded_set m cw j _ hb (by omega)⟩
  · exact ⟨_, rfl, widthsLe_refl cw, hb⟩

theorem dataStep_good (m : Int) : GoodStep m (dataStep m) := by
  intro cw j cell hj hb
  have hget : cw[j]? = some cw[j] := List.getElem?_eq_getElem hj
  have hcur : cw[j] ≤ m := hb _ (List.getElem_mem hj)
  unfold dataStep
  simp only [hget]
  split_ifs with h0 h1 h2
  · exact ⟨_, rfl, widthsLe_refl cw, hb⟩
  · exact ⟨_, rfl, widthsLe_set cw j m (fun cur hc => by rw [hget] at hc; cases hc; exact hcur),
      widthsBounded_set m cw j m hb (le_refl m)⟩
  · exact ⟨_, rfl, widthsLe_set cw j _ (fun cur hc => by rw [hget] at hc; cases hc; omega),
      widthsBounded_set m cw j _ hb (by omega)⟩
  · exact ⟨_, rfl, widthsLe_refl cw, hb⟩

theorem rangeTrace_good (m : Int) (body : List Int → Nat → Cell → Option (List Int))
    (hbody : GoodStep m body) (row : Row) (j : Nat) (cw : List Int)
    (hlen : j + row.length ≤ cw.length) (hb : WidthsBounded m cw) :
    ∃ t, rangeTrace body row j cw = some t ∧
      rangeLoop body row j cw = some (t.getLastD cw) ∧
      List.Chain WidthsLe cw t ∧
      ∀ s ∈ t, WidthsBounded m s ∧ s.length = cw.length := by
  induction row generalizing j cw with
  | nil =>
    exact ⟨[], rfl, rfl, List.Chain.nil, fun s hs => by cases hs⟩
  | cons cell rest ih =>
    simp only [List.length_cons] at hlen
    obtain ⟨next, hstep, hle, hnb⟩ := hbody cw j cell (by omega) hb
    have hnl : next.length = cw.length := (List.Forall₂.length_eq hle).symm
    obtain ⟨t, ht, hl, hchain, hall⟩ := ih (j + 1) next (by omega) hnb
    refine ⟨next :: t, ?_, ?_, List.Chain.cons hle hchain, ?_⟩
    · simp only [rangeTrace, hstep, ht]
    · simp only [rangeLoop, hstep, hl, List.getLastD_cons]
    · intro s hs
      rcases List.mem_cons.1 hs with h | h
      · subst h; exact ⟨hnb, hnl⟩
      · exact ⟨(hall s h).1, (hall s h).2.trans hnl⟩

theorem chain_append_getLastD {α : Type} (R : α → α → Prop) (a : α) (t1 t2 : List α)
    (h1 : List.Chain R a t1) (h2 : List.Chain R (t1.getLastD a) t2) :
    List.Chain R a (t1 ++ t2) := by
  induction t1 generalizing a with
  | nil => exact h2
  | cons b t1 ih =>
    rw [List.getLastD_cons] at h2
    cases h1 with
    | cons hab hrest => exact List.Chain.cons hab (ih b hrest h2)

theorem getLastD_append {α : Type} (a : α) (t1 t2 : List α) :
    (t1 ++ t2).getLastD a = t2.getLastD (t1.getLastD a) := by
  induction t1 generalizing a with
  | nil => rfl
  | cons b t1 ih => simp only [List.cons_append, List.getLastD_cons, ih]

theorem getLastD_good (m : Int) (n : Nat) (cw : List Int) (t : List (List Int))
    (hb : WidthsBounded m cw) (hn : cw.length = n)
    (hall : ∀ s ∈ t, WidthsBounded m s ∧ s.length = n) :
    WidthsBounded m (t.getLastD cw) ∧ (t.getLastD cw).length = n := by
  induction t generalizing cw with
  | nil => exact ⟨hb, hn⟩
  | cons s t ih =>
    rw [List.getLastD_cons]
    exact ih s (hall s (List.mem_cons_self _ _)).1 (hall s (List.mem_cons_self _ _)).2
      (fun s2 h2 => hall s2 (List.mem_cons_of_mem _ h2))

theorem dataTrace_good (m : Int) (rows : List Row) (n i : Nat) (cw : List Int)
    (hrows : ∀ row ∈ rows, row.length ≤ cw.length) (hin : i + n ≤ rows.length)
    (hb : WidthsBounded m cw) :
    ∃ t, dataTrace m rows n i cw = some t ∧
      dataLoop m rows n i cw = some (t.getLastD cw) ∧
      List.Chain WidthsLe cw t ∧
      ∀ s ∈ t, WidthsBounded m s ∧ s.length = cw.length := by
  induction n generalizing i cw with
  | zero => exact ⟨[], rfl, rfl, List.Chain.nil, fun s hs => by cases hs⟩
  | succ n ih =>
    have hi : i < rows.length := by omega
    have hget : rows[i]? = some rows[i] := List.getElem?_eq_getElem hi
    have hrow : rows[i].length ≤ cw.length := hrows _ (List.getElem_mem hi)
    obtain ⟨t1, ht1, hl1, hc1, ha1⟩ :=
      rangeTrace_good m (dataStep m) (dataStep_good m) rows[i] 0 cw (by omega) hb
    obtain ⟨hb1, hn1⟩ := getLastD_good m cw.length cw t1 hb rfl ha1
    obtain ⟨t2, ht2, hl2, hc2, ha2⟩ :=
      ih (i + 1) (t1.getLastD cw) (by rw [hn1]; exact hrows) (by omega) hb1
    refine ⟨t1 ++ t2, ?_, ?_, chain_append_getLastD _ _ _ _ hc1 hc2, ?_⟩
    · simp only [dataTrace, hget, ht1, ht2]
    · simp only [dataLoop, hget, hl1, hl2, getLastD_append]
    · intro s hs
      rcases List.mem_append.1 hs with h | h
      · exact ha1 s h
      · exact ⟨(ha2 s h).1, (ha2 s h).2.trans hn1⟩

theorem numRowsToView_le (imc : InMemoryCsv) (maxRows : Int) :
    (numRowsToView imc maxRows).toNat ≤ imc.rows.length := by
  unfold numRowsToView InMemoryCsv.NumRows
  simp only
  split_ifs <;> omega

theorem indexOfNewlineFrom_first (line rest : Cell) (i : Nat) (h : 10 ∉ line) :
    indexOfNewlineFrom (line ++ 10 :: rest) i = ((i + line.length : Nat) : Int) := by
  induction line generalizing i with
  | nil => simp [indexOfNewlineFrom]
  | cons b line ih =>
    have hb : b ≠ 10 := fun e => h (by simp [e])
    have hl : 10 ∉ line := fun e => h (List.mem_cons_of_mem _ e)
    have e := ih (i + 1) hl
    rw [show i + 1 + line.length = i + (line.length + 1) by omega] at e
    simpa [indexOfNewlineFrom, hb] using e

theorem indexOfNewlineFrom_none (cell : Cell) (i : Nat) (h : 10 ∉ cell) :
    indexOfNewlineFrom cell i = -1 := by
  induction cell generalizing i with
  | nil => rfl
  | cons b cell ih =>
    have hb : b ≠ 10 := fun e => h (by simp [e])
    have hl : 10 ∉ cell := fun e => h (List.mem_cons_of_mem _ e)
    simp only [indexOfNewlineFrom, hb, if_false, ih (i + 1) hl]

/-! ## The claims about `clean` -/

/-- Claim C1. Whatever the dataset and the flags `noTrim`, `excel`, `numbers`, every row that
`Clean` writes has exactly `numColumns` cells. -/
theorem clean_rows_have_numColumns_cells (rows : List Row) (noTrim excel numbers : Bool) :
    ∀ r ∈ Clean rows noTrim excel numbers, (r.length : Int) = numColumns rows := by
  intro r hr
  rw [Clean_eq] at hr
  obtain ⟨row, _, hrow⟩ := List.mem_map.1 hr
  rw [← hrow, outRow_length]
  exact Int.toNat_of_nonneg (numColumns_nonneg rows)

/-- Claim C1 at the specification's example: the padded row `["c",""]` is written and has
`numColumns = 2` cells. -/
theorem clean_rows_have_numColumns_cells_witness :
    ([ascii "c", []] : Row) ∈ Clean specExample false false false ∧
    ((([ascii "c", []] : Row).length : Int) = numColumns specExample) :=
  ⟨by decide, clean_rows_have_numColumns_cells specExample false false false _ (by decide)⟩

/-- Claim C2. `numColumns` is the maximum over the rows of (index of the last non-empty
cell + 1): it is at least `j + 1` for every non-empty cell at index `j` of every row, it is
either 0 or `j + 1` for the last non-empty cell `j` of some row, and it is 0 when the dataset
has no rows or every cell of every row is empty. -/
theorem numColumns_is_max_width (rows : List Row) :
    (∀ row ∈ rows, ∀ (j : Nat) (c : Cell), row[j]? = some c → c ≠ [] →
      (j : Int) + 1 ≤ numColumns rows) ∧
    (numColumns rows = 0 ∨
      ∃ row ∈ rows, ∃ (j : Nat) (c : Cell), row[j]? = some c ∧ c ≠ [] ∧
        (∀ (m : Nat) (c' : Cell), j < m → row[m]? = some c' → c' = []) ∧
        numColumns rows = (j : Int) + 1) ∧
    ((rows = [] ∨ ∀ row ∈ rows, RowEmpty row) → numColumns rows = 0) := by
  refine ⟨numColumns_ge_of_cell rows, numColumns_zero_or_attained rows, ?_⟩
  intro hall
  rcases numColumns_zero_or_attained rows with h | ⟨row, hrow, j, c, hj, hc, _, _⟩
  · exact h
  · rcases hall with hnil | hall
    · subst hnil; cases hrow
    · exact absurd (hall row hrow c (List.getElem?_mem hj)) hc

/-- Claim C3 as stated fails: `["a",""], ["b",""]` is rectangular and its last row is not
fully empty, yet `Clean` without limit flags does not reproduce it, with or without
`noTrim`: the empty last column is cut and the rows written are `["a"], ["b"]`. -/
theorem round_trip_fails_on_empty_last_column :
    (∀ row ∈ trailingEmptyColumn, row.length = 2) ∧
    (∃ last, trailingEmptyColumn.getLast? = some last ∧ ¬ RowEmpty last) ∧
    Clean trailingEmptyColumn false false false = [[ascii "a"], [ascii "b"]] ∧
    Clean trailingEmptyColumn true false false = [[ascii "a"], [ascii "b"]] ∧
    Clean trailingEmptyColumn false false false ≠ trailingEmptyColumn ∧
    Clean trailingEmptyColumn true false false ≠ trailingEmptyColumn := by
  refine ⟨by decide, ⟨[ascii "b", []], by decide, by decide⟩, by decide, by decide,
    by decide, by decide⟩

/-- Claim C3, amended. For a rectangular dataset (every row has `w` cells) in which some row
has a non-empty last cell, and whose last row is not fully empty, `Clean` with `excel` and
`numbers` off writes exactly the input rows, unchanged and in order. -/
theorem clean_round_trip (rows : List Row) (noTrim : Bool) (w : Nat)
    (hrect : ∀ row ∈ rows, row.length = w)
    (hcol : rows = [] ∨ ∃ row ∈ rows, ∃ c, row.getLast? = some c ∧ c ≠ [])
    (hlast : ∀ last, rows.getLast? = some last → ¬ RowEmpty last) :
    Clean rows noTrim false false = rows := by
  rcases hcol with hnil | hcol
  · subst hnil; cases noTrim <;> rfl
  · have hw := numColumns_of_rectangular rows w hrect hcol
    have ht := trimFromIndex_of_last rows hlast
    rw [Clean_eq, ht, hw]
    have hcount : emitCount (-1) noTrim false rows.length 0 = rows.length := by
      unfold emitCount; simp
    rw [hcount, List.take_length]
    conv => rhs; rw [← List.map_id rows]
    apply List.map_congr_left
    intro row hrow
    simp [outRow, normalizeRow_of_length _ _ (hrect row hrow)]

/-- Claim C3, amended, at `["a","b"], ["","c"]`. -/
theorem clean_round_trip_witness :
    (∀ row ∈ fullColumns, row.length = 2) ∧
    (∀ last, fullColumns.getLast? = some last → ¬ RowEmpty last) ∧
    Clean fullColumns false false false = fullColumns :=
  ⟨by decide, by intro last h; cases h; decide,
    clean_round_trip fullColumns false 2 (by decide)
      (Or.inr ⟨[ascii "a", ascii "b"], by decide, ascii "b", by decide, by decide⟩)
      (by intro last h; cases h; decide)⟩

/-- Claim C4. `trimFromIndex` is `-1` exactly when the dataset is empty or its last row has
a non-empty cell; otherwise it is the index `k` of a row such that every row from `k` to
the end is fully empty and either `k = 0` or row `k - 1` has a non-empty cell. -/
theorem trimFromIndex_is_trailing_run_start (rows : List Row) :
    (trimFromIndex rows = -1 ↔
      (rows = [] ∨ ∃ last, rows.getLast? = some last ∧ ¬ RowEmpty last)) ∧
    (trimFromIndex rows ≠ -1 →
      ∃ k : Nat, trimFromIndex rows = (k : Int) ∧ k < rows.length ∧
        (∀ (i : Nat) (row : Row), k ≤ i → rows[i]? = some row → RowEmpty row) ∧
        (k = 0 ∨ ∃ row, rows[k - 1]? = some row ∧ ¬ RowEmpty row)) := by
  refine ⟨⟨?_, ?_⟩, ?_⟩
  · intro h
    rcases trimFromIndex_spec rows with ⟨_, hc⟩ | ⟨k, hk, _⟩
    · exact hc
    · omega
  · intro h
    apply trimFromIndex_of_last
    intro last hlast
    rcases h with hnil | ⟨last2, hlast2, hne⟩
    · subst hnil; simp at hlast
    · rw [hlast] at hlast2; cases hlast2; exact hne
  · intro h
    rcases trimFromIndex_spec rows with ⟨ht, _⟩ | hk
    · exact absurd ht h
    · exact hk

/-- Claim C5. When the final row of the dataset has a non-empty cell, `Clean` with
`noTrim = false` writes the same rows as with `noTrim = true`, for every `excel` and
`numbers`; with `numbers = false` it writes one row per input row. -/
theorem no_trimming_when_last_row_nonempty (rows : List Row) (excel numbers : Bool)
    (hlast : ∃ last, rows.getLast? = some last ∧ ¬ RowEmpty last) :
    Clean rows false excel numbers = Clean rows true excel numbers ∧
    (Clean rows false excel false).length = rows.length := by
  have ht : trimFromIndex rows = -1 := by
    apply trimFromIndex_of_last
    intro last h
    obtain ⟨last2, hlast2, hne⟩ := hlast
    rw [h] at hlast2; cases hlast2; exact hne
  have hcount : ∀ nb, emitCount (-1) false nb rows.length 0 =
      emitCount (-1) true nb rows.length 0 := by
    intro nb; unfold emitCount; simp
  refine ⟨?_, ?_⟩
  · rw [Clean_eq, Clean_eq, ht, hcount]
  · rw [Clean_eq, ht]
    unfold emitCount; simp

/-- Claim C5 at `["a"], [], ["b"]` with `excel` on. -/
theorem no_trimming_when_last_row_nonempty_witness :
    (∃ last, raggedRows.getLast? = some last ∧ ¬ RowEmpty last) ∧
    Clean raggedRows false true false = Clean raggedRows true true false ∧
    (Clean raggedRows false true false).length = raggedRows.length :=
  ⟨⟨[ascii "b"], by decide, by decide⟩,
    no_trimming_when_last_row_nonempty raggedRows true false
      ⟨[ascii "b"], by decide, by decide⟩⟩

/-- Claim C6. With `numbers = true`, `Clean` writes at most 65535 rows, the header row
included, and what it writes is the first `min(65535, n)` rows of what it writes with
`numbers = false`, `n` being the row count of that output. -/
theorem numbers_limit_keeps_first_rows (rows : List Row) (noTrim excel : Bool) :
    (Clean rows noTrim excel true).length ≤ 65535 ∧
    Clean rows noTrim excel true =
      (Clean rows noTrim excel false).take
        (min 65535 (Clean rows noTrim excel false).length) := by
  have h : Clean rows noTrim excel true = (Clean rows noTrim excel false).take 65535 := by
    rw [Clean_eq, Clean_eq, take_emitCount_numbers, List.map_take]
  refine ⟨?_, ?_⟩
  · rw [h]; exact List.length_take_le _ _
  · rw [h, List.take_eq_take]; omega

/-- Claim C7. With `excel = true`, every cell `Clean` writes has length at most 32767, and
the output is the output with `excel = false` in which each cell longer than 32767 is
replaced by its first 32767 bytes and every other cell is left as it is. -/
theorem excel_limit_truncates_cells (rows : List Row) (noTrim numbers : Bool) :
    (∀ r ∈ Clean rows noTrim true numbers, ∀ c ∈ r, c.length ≤ 32767) ∧
    Clean rows noTrim true numbers =
      (Clean rows noTrim false numbers).map
        (List.map (fun c => if c.length > 32767 then c.take 32767 else c)) := by
  have h : Clean rows noTrim true numbers =
      (Clean rows noTrim false numbers).map (List.map excelCell) := by
    rw [Clean_eq, Clean_eq, List.map_map]
    apply List.map_congr_left
    intro row _
    simp [outRow]
  refine ⟨?_, h⟩
  intro r hr c hc
  rw [h] at hr
  obtain ⟨r0, _, hr0⟩ := List.mem_map.1 hr
  rw [← hr0] at hc
  obtain ⟨c0, _, hc0⟩ := List.mem_map.1 hc
  rw [← hc0]
  exact excelCell_length c0

/-- Claim C8. With `excel` and `numbers` off, the output of `Clean` is the pure reference:
the rows before the cutoff, each cut to its first `numColumns` cells and right-padded with
empty cells. The second loop gives this result whatever the scratch row holds on entry, so
no cell of an earlier row reaches a later one. On `["a","b"], ["c"], ["",""]` the width is
2, the cutoff is 2 and the output is `["a","b"], ["c",""]`. -/
theorem clean_refines_reference (rows : List Row) (noTrim : Bool) :
    Clean rows noTrim false false = cleanReference rows noTrim ∧
    (∀ shellRow : Row, shellRow.length = (numColumns rows).toNat →
      emitLoop (numColumns rows) (trimFromIndex rows) noTrim false false rows 0 shellRow =
        cleanReference rows noTrim) ∧
    numColumns specExample = 2 ∧ trimFromIndex specExample = 2 ∧
    Clean specExample false false false = [[ascii "a", ascii "b"], [ascii "c", []]] := by
  have hnn : (((numColumns rows).toNat : Nat) : Int) = numColumns rows :=
    Int.toNat_of_nonneg (numColumns_nonneg rows)
  have hout : outRow (numColumns rows).toNat false = normalizeRow (numColumns rows).toNat := by
    funext row; simp [outRow]
  have hge := trimFromIndex_ge rows
  have hkept : rows.take (emitCount (trimFromIndex rows) noTrim false rows.length 0) =
      (if noTrim = true ∨ trimFromIndex rows = -1 then rows
        else rows.take (trimFromIndex rows).toNat) := by
    unfold emitCount
    by_cases h : noTrim = true ∨ trimFromIndex rows = -1
    · rw [if_pos h]
      have : ¬ (noTrim = false ∧ trimFromIndex rows > -1) := by
        rcases h with h | h
        · simp [h]
        · omega
      simp [this]
    · rw [if_neg h]
      have : noTrim = false ∧ trimFromIndex rows > -1 := by
        constructor
        · cases noTrim <;> simp_all
        · have : trimFromIndex rows ≠ -1 := fun e => h (Or.inr e)
          omega
      simp only [Bool.false_eq_true, if_false, this, and_self, if_true, Int.sub_zero,
        Nat.cast_zero]
      rw [List.take_eq_take]
      omega
  have hloop : ∀ shellRow : Row, shellRow.length = (numColumns rows).toNat →
      emitLoop (numColumns rows) (trimFromIndex rows) noTrim false false rows 0 shellRow =
        cleanReference rows noTrim := by
    intro shellRow hs
    have := emitLoop_eq (numColumns rows).toNat (trimFromIndex rows) noTrim false false rows 0
      shellRow hs
    rw [hnn] at this
    rw [this, hout, hkept]
    rfl
  refine ⟨?_, hloop, by decide, by decide, by decide⟩
  exact hloop _ (by simp [numColumns])

/-! ## The claims about `view` -/

/-- Claim C9. For a header, data rows none of which has more cells than the header, a
`maxWidth` of at least 1 and any `maxRows`, the width computation of `View` succeeds; every
value the width array takes (initially, after each header cell, after each data cell
scanned) has one entry per header cell, each at most `maxWidth`; and from each value to the
next no column's width decreases. The last value is the result. -/
theorem view_widths_bounded_and_monotone (header : Row) (rows : List Row)
    (maxWidth maxRows : Int)
    (hrows : ∀ row ∈ rows, row.length ≤ header.length) (hmax : 1 ≤ maxWidth) :
    ∃ trace widths,
      viewColumnWidthsTrace { header := header, rows := rows } maxWidth maxRows = some trace ∧
      viewColumnWidths { header := header, rows := rows } maxWidth maxRows = some widths ∧
      trace.getLast? = some widths ∧
      (∀ cw ∈ trace, cw.length = header.length ∧ ∀ w ∈ cw, w ≤ maxWidth) ∧
      List.Chain' WidthsLe trace := by
  have hinit : WidthsBounded maxWidth (List.replicate header.length (0 : Int)) := by
    intro x hx
    rw [List.eq_of_mem_replicate hx]; omega
  have hlen0 : (List.replicate header.length (0 : Int)).length = header.length := by simp
  obtain ⟨t1, ht1, hl1, hc1, ha1⟩ :=
    rangeTrace_good maxWidth (headerStep maxWidth) (headerStep_good maxWidth) header 0
      (List.replicate header.length 0) (by simp) hinit
  obtain ⟨hb1, hn1⟩ := getLastD_good maxWidth _ _ t1 hinit rfl ha1
  obtain ⟨t2, ht2, hl2, hc2, ha2⟩ :=
    dataTrace_good maxWidth rows
      (numRowsToView { header := header, rows := rows } maxRows).toNat 0
      (t1.getLastD (List.replicate header.length 0))
      (by rw [hn1, hlen0]; exact hrows)
      (by simpa using numRowsToView_le { header := header, rows := rows } maxRows) hb1
  refine ⟨List.replicate header.length 0 :: (t1 ++ t2),
    t2.getLastD (t1.getLastD (List.replicate header.length 0)), ?_, ?_, ?_, ?_, ?_⟩
  · simp only [viewColumnWidthsTrace, InMemoryCsv.NumColumns, Int.toNat_ofNat, ht1, ht2]
  · simp only [viewColumnWidths, InMemoryCsv.NumColumns, Int.toNat_ofNat, hl1, hl2]
  · rw [List.getLast?_cons, ← List.getLastD_eq_getLast?, getLastD_append]
  · intro cw hcw
    rcases List.mem_cons.1 hcw with h | h
    · subst h; exact ⟨hlen0, hinit⟩
    · rcases List.mem_append.1 h with h | h
      · exact ⟨(ha1 cw h).2.trans hlen0, (ha1 cw h).1⟩
      · exact ⟨((ha2 cw h).2.trans hn1).trans hlen0, (ha2 cw h).1⟩
  · exact chain_append_getLastD _ _ _ _ hc1 hc2

/-- Claim C9 at the specification's example, `maxWidth = 10` and `maxRows = 0`. -/
theorem view_widths_bounded_and_monotone_witness :
    (∀ row ∈ noteExample.rows, row.length ≤ noteExample.header.length) ∧ (1 : Int) ≤ 10 ∧
    ∃ trace widths,
      viewColumnWidthsTrace noteExample 10 0 = some trace ∧
      viewColumnWidths noteExample 10 0 = some widths ∧
      trace.getLast? = some widths ∧
      (∀ cw ∈ trace, cw.length = noteExample.header.length ∧ ∀ w ∈ cw, w ≤ 10) ∧
      List.Chain' WidthsLe trace :=
  ⟨by decide, by decide,
    view_widths_bounded_and_monotone noteExample.header noteExample.rows 10 0
      (by decide) (by decide)⟩

/-- Claim C10, evaluated on the code. `getCellWidth` of a cell with a line break is the
length of its first line plus one, the line break being counted: `"line1\\nline2"` has width
6, the "Note" column of the example gets width 6, and the cell is rendered as `"line1 "`,
six bytes. A cell without a line break has its full length as width. -/
theorem getCellWidth_counts_line_break :
    getCellWidth twoLineCell = 6 ∧
    viewColumnWidths noteExample 10 0 = some [4, 6] ∧
    getTruncatedAndPaddedCell twoLineCell 6 = some (ascii "line1 ") ∧
    (∀ line rest : Cell, 10 ∉ line →
      getCellWidth (line ++ 10 :: rest) = (line.length : Int) + 1) ∧
    (∀ cell : Cell, 10 ∉ cell → getCellWidth cell = (cell.length : Int)) := by
  refine ⟨by decide, by decide, by decide, ?_, ?_⟩
  · intro line rest h
    unfold getCellWidth stringsIndexNewline
    rw [indexOfNewlineFrom_first line rest 0 h]
    simp only [Nat.zero_add]
    rw [if_pos (by omega)]
  · intro cell h
    unfold getCellWidth stringsIndexNewline
    rw [indexOfNewlineFrom_none cell 0 h]
    simp

/-! ## Lemmas about `getTruncatedAndPaddedCell` -/

theorem firstLine_cons (b : Nat) (rest : Cell) :
    firstLine (b :: rest) = if b = 10 then [] else b :: firstLine rest := by
  unfold firstLine
  by_cases h : b = 10 <;> simp [List.takeWhile_cons, h]

theorem firstLine_no_newline (cell : Cell) : 10 ∉ firstLine cell := by
  induction cell with
  | nil => simp [firstLine]
  | cons b rest ih =>
    rw [firstLine_cons]
    by_cases h : b = 10
    · simp [h]
    · simp only [h, if_false, List.mem_cons, not_or]
      exact ⟨fun e => h e.symm, ih⟩

theorem indexOfNewlineFrom_firstLine (cell : Cell) (i : Nat) :
    (indexOfNewlineFrom cell i = -1 ∧ firstLine cell = cell) ∨
    (indexOfNewlineFrom cell i = ((i + (firstLine cell).length : Nat) : Int) ∧
      cell.take (firstLine cell).length = firstLine cell) := by
  induction cell generalizing i with
  | nil => left; exact ⟨rfl, rfl⟩
  | cons b rest ih =>
    rw [firstLine_cons]
    by_cases h : b = 10
    · right
      simp [indexOfNewlineFrom, h]
    · simp only [indexOfNewlineFrom, h, if_false]
      rcases ih (i + 1) with ⟨h1, h2⟩ | ⟨h1, h2⟩
      · left; exact ⟨h1, by rw [h2]⟩
      · right
        refine ⟨?_, ?_⟩
        · rw [h1]; simp only [List.length_cons]; push_cast; omega
        · simp only [List.length_cons, List.take_succ_cons, h2]

/-- The `lineString` of lines 21-27 of view.go is the first line of the cell. -/
theorem lineString_eq_firstLine (cell : Cell) :
    (if stringsIndexNewline cell > -1 then cell.take (stringsIndexNewline cell).toNat
      else cell) = firstLine cell := by
  unfold stringsIndexNewline
  rcases indexOfNewlineFrom_firstLine cell 0 with ⟨h1, h2⟩ | ⟨h1, h2⟩
  · rw [h1, h2]; simp
  · rw [h1]
    simp only [Nat.zero_add, Int.toNat_ofNat]
    rw [if_pos (by omega), h2]

theorem getTruncatedAndPaddedCell_eq (cell : Cell) (width : Int) :
    getTruncatedAndPaddedCell cell width =
      if ((firstLine cell).length : Int) = width then some (firstLine cell)
      else if ((firstLine cell).length : Int) < width then
        some (firstLine cell ++ List.replicate (width - (firstLine cell).length).toNat 32)
      else if width - 3 < 0 then none
      else some ((firstLine cell).take (width - 3).toNat ++ [46, 46, 46]) := by
  unfold getTruncatedAndPaddedCell
  simp only [lineString_eq_firstLine]

theorem firstLine_idem (cell : Cell) : firstLine (firstLine cell) = firstLine cell := by
  induction cell with
  | nil => rfl
  | cons b rest ih =>
    rw [firstLine_cons]
    by_cases h : b = 10
    · simp [h, firstLine]
    · simp only [h, if_false]; rw [firstLine_cons]; simp [h, ih]

theorem getTruncatedAndPaddedCell_firstLine (cell : Cell) (width : Int) :
    getTruncatedAndPaddedCell (firstLine cell) width = getTruncatedAndPaddedCell cell width := by
  rw [getTruncatedAndPaddedCell_eq, getTruncatedAndPaddedCell_eq, firstLine_idem]

theorem getTruncatedAndPaddedCell_formatTo (cell : Cell) (w : Nat)
    (h : 3 ≤ w ∨ (firstLine cell).length ≤ w) :
    getTruncatedAndPaddedCell cell (w : Int) = some (formatTo (firstLine cell) w) := by
  rw [getTruncatedAndPaddedCell_eq]
  unfold formatTo
  by_cases h1 : (firstLine cell).length = w
  · simp [h1]
  · by_cases h2 : (firstLine cell).length < w
    · have e : ((w : Int) - ((firstLine cell).length : Int)).toNat = w - (firstLine cell).length := by
        omega
      simp only [Nat.cast_inj, h1, if_false, Nat.cast_lt, h2, if_true, e]
    · have h3 : 3 ≤ w := by omega
      have e : ((w : Int) - 3).toNat = w - 3 := by omega
      have e2 : ¬ ((w : Int) - 3 < 0) := by omega
      simp only [Nat.cast_inj, h1, if_false, Nat.cast_lt, h2, e2, e]
      rfl

theorem formatTo_length (line : Cell) (w : Nat) (h : 3 ≤ w ∨ line.length ≤ w) :
    (formatTo line w).length = w := by
  unfold formatTo
  split_ifs with h1 h2
  · exact h1
  · simp only [List.length_append, List.length_replicate]; omega
  · have : (ascii "...").length = 3 := by decide
    simp only [List.length_append, List.length_take, this]; omega

theorem formatTo_no_newline (line : Cell) (w : Nat) (h : 10 ∉ line) : 10 ∉ formatTo line w := by
  unfold formatTo
  split_ifs with h1 h2
  · exact h
  · simp only [List.mem_append, not_or]
    exact ⟨h, fun e => by have := List.eq_of_mem_replicate e; omega⟩
  · simp only [List.mem_append, not_or]
    exact ⟨fun e => h (List.mem_of_mem_take e), by decide⟩

theorem getTruncatedAndPaddedCell_panics (cell : Cell) (width : Int)
    (h1 : width < 3) (h2 : ((firstLine cell).length : Int) > width) :
    getTruncatedAndPaddedCell cell width = none := by
  rw [getTruncatedAndPaddedCell_eq]
  rw [if_neg (by omega), if_neg (by omega), if_pos (by omega)]

/-! ## Lemmas about running `Clean` on its own output -/

theorem excelCell_ne_nil (c : Cell) (h : c ≠ []) : excelCell c ≠ [] := by
  unfold excelCell EXCEL_CELL_CHAR_LIMIT
  split
  · cases c with
    | nil => exact absurd rfl h
    | cons b rest => simp
  · exact h

theorem excelCell_of_short (c : Cell) (h : c.length ≤ 32767) : excelCell c = c := by
  unfold excelCell EXCEL_CELL_CHAR_LIMIT
  rw [if_neg (by omega)]

theorem excelCell_idem (c : Cell) : excelCell (excelCell c) = excelCell c :=
  excelCell_of_short _ (excelCell_length c)

theorem normalizeRow_getElem? (n : Nat) (row : Row) (j : Nat) (c : Cell) (hj : j < n)
    (hc : row[j]? = some c) : (normalizeRow n row)[j]? = some c := by
  have hlt : j < row.length := (List.getElem?_eq_some_iff.1 hc).1
  unfold normalizeRow
  rw [List.getElem?_append_left (by simp; omega), List.getElem?_take_of_lt hj]
  exact hc

theorem outRow_getElem? (n : Nat) (excel : Bool) (row : Row) (j : Nat) (c : Cell) (hj : j < n)
    (hc : row[j]? = some c) :
    (outRow n excel row)[j]? = some (if excel = true then excelCell c else c) := by
  unfold outRow
  cases excel
  · simp [normalizeRow_getElem? n row j c hj hc]
  · simp [normalizeRow_getElem? n row j c hj hc]

theorem outRow_idem (n : Nat) (excel : Bool) (row : Row) :
    outRow n excel (outRow n excel row) = outRow n excel row := by
  have hl := outRow_length n excel row
  cases excel
  · simp only [outRow, Bool.false_eq_true, if_false] at hl ⊢
    exact normalizeRow_of_length n _ hl
  · simp only [outRow, if_true] at hl ⊢
    rw [normalizeRow_of_length n _ hl, List.map_map]
    apply List.map_congr_left
    intro c _
    exact excelCell_idem c

theorem cell_index_lt_numColumns (rows : List Row) (row : Row) (hrow : row ∈ rows) (j : Nat)
    (c : Cell) (hc : row[j]? = some c) (hne : c ≠ []) : j < (numColumns rows).toNat := by
  have := numColumns_ge_of_cell rows row hrow j c hc hne
  omega

theorem outRow_not_empty (rows : List Row) (excel : Bool) (row : Row) (hrow : row ∈ rows)
    (h : ¬ RowEmpty row) : ¬ RowEmpty (outRow (numColumns rows).toNat excel row) := by
  unfold RowEmpty at h
  push_neg at h
  obtain ⟨c, hc, hne⟩ := h
  obtain ⟨j, hj⟩ := List.mem_iff_getElem?.1 hc
  have hlt := cell_index_lt_numColumns rows row hrow j c hj hne
  have hout := outRow_getElem? (numColumns rows).toNat excel row j c hlt hj
  intro hE
  have := hE _ (List.getElem?_mem hout)
  cases excel
  · exact hne (by simpa using this)
  · exact excelCell_ne_nil c hne (by simpa using this)

theorem nonempty_row_kept (rows : List Row) (noTrim : Bool) (i : Nat) (row : Row)
    (hrow : rows[i]? = some row) (hne : ¬ RowEmpty row) :
    i < emitCount (trimFromIndex rows) noTrim false rows.length 0 := by
  have hlt : i < rows.length := (List.getElem?_eq_some_iff.1 hrow).1
  unfold emitCount
  simp only [Bool.false_eq_true, if_false]
  rcases trimFromIndex_spec rows with ⟨ht, _⟩ | ⟨k, ht, hk, hall, _⟩
  · rw [ht]; simp; exact hlt
  · have hik : i < k := by
      by_contra hge
      exact hne (hall i row (by omega) hrow)
    split_ifs
    · rw [ht]; simp; omega
    · simp; exact hlt

/-- With `noTrim` off and no row limit, the rows written are none, or end with a row that
has a non-empty cell. -/
theorem clean_last_not_empty (rows : List Row) (excel : Bool) :
    Clean rows false excel false = [] ∨
    ∃ last, (Clean rows false excel false).getLast? = some last ∧ ¬ RowEmpty last := by
  rw [Clean_eq]
  have hlast : ∀ k, 0 < k → k ≤ rows.length → ∀ row, rows[k - 1]? = some row → ¬ RowEmpty row →
      ∃ last, ((rows.take k).map (outRow (numColumns rows).toNat excel)).getLast? = some last ∧
        ¬ RowEmpty last := by
    intro k hk hkl row hrow hne
    refine ⟨outRow (numColumns rows).toNat excel row, ?_,
      outRow_not_empty rows excel row (List.getElem?_mem hrow) hne⟩
    rw [List.getLast?_eq_getElem?, List.length_map, List.length_take,
      List.getElem?_map, List.getElem?_take_of_lt (by omega)]
    rw [show min k rows.length - 1 = k - 1 by omega, hrow]
    rfl
  unfold emitCount
  simp only [Bool.false_eq_true, if_false, true_and]
  rcases trimFromIndex_spec rows with ⟨ht, hcase⟩ | ⟨k, ht, hk, hall, hprev⟩
  · rw [ht]
    simp only [gt_iff_lt, lt_self_iff_false, if_false, min_self, List.take_length]
    rcases hcase with hnil | ⟨last, hl, hne⟩
    · left; simp [hnil]
    · right
      have hpos : 0 < rows.length := by
        cases rows with
        | nil => simp at hl
        | cons a l => simp
      rw [List.getLast?_eq_getElem?] at hl
      have := hlast rows.length hpos (le_refl _) last hl hne
      simpa using this
  · rw [ht]
    have hK : min rows.length (if (k : Int) > -1 then ((k : Int) - ((0 : Nat) : Int)).toNat
        else rows.length) = k := by
      rw [if_pos (by omega)]
      have : ((k : Int) - ((0 : Nat) : Int)).toNat = k := by omega
      rw [this]; omega
    rw [hK]
    rcases hprev with h0 | ⟨row, hrow, hne⟩
    · left; simp [h0]
    · right
      have hpos : 0 < k := by
        by_contra h0
        have hk0 : k = 0 := by omega
        subst hk0
        exact hne (hall 0 row (le_refl 0) hrow)
      exact hlast k hpos (by omega) row hrow hne

theorem clean_getElem?_of_not_empty (rows : List Row) (noTrim excel : Bool) (i : Nat)
    (row : Row) (hrow : rows[i]? = some row) (hne : ¬ RowEmpty row) :
    (Clean rows noTrim excel false)[i]? = some (outRow (numColumns rows).toNat excel row) := by
  rw [Clean_eq, List.getElem?_map,
    List.getElem?_take_of_lt (nonempty_row_kept rows noTrim i row hrow hne), hrow]
  rfl

theorem not_rowEmpty_of_cell (row : Row) (j : Nat) (c : Cell) (hc : row[j]? = some c)
    (hne : c ≠ []) : ¬ RowEmpty row :=
  fun hE => hne (hE c (List.getElem?_mem hc))

theorem numColumns_clean (rows : List Row) (noTrim excel : Bool) :
    numColumns (Clean rows noTrim excel false) = numColumns rows := by
  apply le_antisymm
  · rcases numColumns_zero_or_attained (Clean rows noTrim excel false) with
      h | ⟨out, hout, j, c, hj, _, _, h⟩
    · rw [h]; exact numColumns_nonneg rows
    · rw [Clean_eq] at hout
      obtain ⟨row, _, hrow⟩ := List.mem_map.1 hout
      have hlen : out.length = (numColumns rows).toNat := by
        rw [← hrow]; exact outRow_length _ _ _
      have hlt : j < out.length := (List.getElem?_eq_some_iff.1 hj).1
      rw [h]; omega
  · rcases numColumns_zero_or_attained rows with h | ⟨row, hrow, j, c, hj, hne, _, h⟩
    · rw [h]; exact numColumns_nonneg _
    · obtain ⟨i, hi⟩ := List.mem_iff_getElem?.1 hrow
      have hkept := clean_getElem?_of_not_empty rows noTrim excel i row hi
        (not_rowEmpty_of_cell row j c hj hne)
      have hlt : j < (numColumns rows).toNat := by omega
      have hcell := outRow_getElem? (numColumns rows).toNat excel row j c hlt hj
      have hne2 : (if excel = true then excelCell c else c) ≠ [] := by
        cases excel
        · simpa using hne
        · simpa using excelCell_ne_nil c hne
      have := numColumns_ge_of_cell (Clean rows noTrim excel false) _
        (List.getElem?_mem hkept) j _ hcell hne2
      rw [h]; exact this

theorem emitCount_clean (rows : List Row) (noTrim excel : Bool) :
    emitCount (trimFromIndex (Clean rows noTrim excel false)) noTrim false
      (Clean rows noTrim excel false).length 0 = (Clean rows noTrim excel false).length := by
  cases noTrim
  · have ht : trimFromIndex (Clean rows false excel false) = -1 := by
      apply trimFromIndex_of_last
      intro last hl
      rcases clean_last_not_empty rows excel with h | ⟨last2, hl2, hne⟩
      · rw [h] at hl; simp at hl
      · rw [hl] at hl2; cases hl2; exact hne
    rw [ht]; unfold emitCount; simp
  · unfold emitCount; simp

theorem fixRow_getElem? (rows : List Row) (row : Row) (hrow : row ∈ rows) (j : Nat) (c : Cell)
    (hc : row[j]? = some c) (hne : c ≠ []) (shellRow : Row)
    (hs : shellRow.length = (numColumns rows).toNat) :
    (fixRow (numColumns rows) shellRow row)[j]? = some c := by
  have hnn : (((numColumns rows).toNat : Nat) : Int) = numColumns rows :=
    Int.toNat_of_nonneg (numColumns_nonneg rows)
  have h := fixRow_eq (numColumns rows).toNat shellRow row hs
  rw [hnn] at h
  rw [h]
  exact normalizeRow_getElem? _ row j c (cell_index_lt_numColumns rows row hrow j c hc hne) hc

/-! ## Lemmas about the closed form of the column widths -/

theorem indexOfNewlineFrom_ge (cell : Cell) (i : Nat) : -1 ≤ indexOfNewlineFrom cell i := by
  induction cell generalizing i with
  | nil => simp [indexOfNewlineFrom]
  | cons b rest ih =>
    simp only [indexOfNewlineFrom]
    split
    · omega
    · exact ih (i + 1)

theorem getCellWidth_nonneg (cell : Cell) : 0 ≤ getCellWidth cell := by
  unfold getCellWidth stringsIndexNewline
  have := indexOfNewlineFrom_ge cell 0
  simp only
  split <;> omega

theorem getElem?_append_cons_length (pre : List Int) (w : Int) (suf : List Int) :
    (pre ++ w :: suf)[pre.length]? = some w := by
  rw [List.getElem?_append_right (le_refl _)]
  simp

theorem set_append_cons_length (pre : List Int) (w v : Int) (suf : List Int) :
    (pre ++ w :: suf).set pre.length v = pre ++ v :: suf := by
  rw [List.set_append_right _ _ (le_refl _)]
  simp

theorem headerStep_widens (m : Int) : StepWidens m (headerStep m) := by
  intro pre w suf cell hw
  unfold headerStep widen
  simp only [getElem?_append_cons_length, set_append_cons_length]
  split_ifs with h1 h2
  · rw [max_eq_right (by omega), min_eq_left (by omega)]
  · rw [max_eq_right (by omega), min_eq_right (by omega)]
  · rw [max_eq_left (by omega), min_eq_right hw]

theorem dataStep_widens (m : Int) : StepWidens m (dataStep m) := by
  intro pre w suf cell hw
  unfold dataStep widen
  simp only [getElem?_append_cons_length, set_append_cons_length]
  split_ifs with h0 h1 h2
  · subst h0
    rw [min_eq_left (le_max_left _ _)]
  · rw [max_eq_right (by omega), min_eq_left (by omega)]
  · rw [max_eq_right (by omega), min_eq_right (by omega)]
  · rw [max_eq_left (by omega), min_eq_right hw]

theorem rangeLoop_zipWith (m : Int) (body : List Int → Nat → Cell → Option (List Int))
    (hbody : StepWidens m body) (row : Row) (pre suf : List Int)
    (hlen : suf.length = row.length) (hb : ∀ w ∈ suf, w ≤ m) :
    rangeLoop body row pre.length (pre ++ suf) =
      some (pre ++ List.zipWith (widen m) suf row) := by
  induction row generalizing pre suf with
  | nil =>
    cases suf with
    | nil => simp [rangeLoop]
    | cons w suf => simp at hlen
  | cons cell rest ih =>
    cases suf with
    | nil => simp at hlen
    | cons w suf =>
      simp only [List.length_cons, Nat.add_right_cancel_iff] at hlen
      have hstep := hbody pre w suf cell (hb w (List.mem_cons_self _ _))
      have hnext := ih (pre ++ [widen m w cell]) suf hlen
        (fun x hx => hb x (List.mem_cons_of_mem _ hx))
      simp only [List.length_append, List.length_singleton, List.append_assoc,
        List.singleton_append] at hnext
      simp only [rangeLoop, hstep, hnext, List.zipWith_cons_cons]

theorem rangeLoop_capped (m : Int) (body : List Int → Nat → Cell → Option (List Int))
    (hbody : StepWidens m body) (row : Row) (g : Nat → Int) :
    rangeLoop body row 0 (cappedWidths m row.length g) =
      some (cappedWidths m row.length (fun j => max (g j) (getCellWidth (row.getD j [])))) := by
  have h := rangeLoop_zipWith m body hbody row [] (cappedWidths m row.length g)
    (by simp [cappedWidths])
    (by
      intro w hw
      obtain ⟨j, _, hj⟩ := List.mem_map.1 hw
      rw [← hj]; exact min_le_left _ _)
  simp only [List.length_nil, List.nil_append] at h
  rw [h]
  congr 1
  apply List.ext_getElem?
  intro k
  simp only [cappedWidths, List.getElem?_zipWith, List.getElem?_map]
  by_cases hk : k < row.length
  · rw [List.getElem?_range hk, List.getElem?_eq_getElem hk]
    simp only [Option.map_some', List.getD_eq_getElem?_getD, List.getElem?_eq_getElem hk,
      Option.getD_some, widen]
    congr 1
    rcases le_total m (g k) with h1 | h1
    · rw [min_eq_left h1]
      rw [min_eq_left (le_max_of_le_left (le_refl m)), min_eq_left (le_max_of_le_left h1)]
    · rw [min_eq_right h1]
  · have h1 : (List.range row.length)[k]? = none := by
      rw [List.getElem?_eq_none_iff]; simp; omega
    have h2 : row[k]? = none := by
      rw [List.getElem?_eq_none_iff]; omega
    simp [h1, h2]

theorem dataLoop_capped (m : Int) (rows : List Row) (N : Nat)
    (hrows : ∀ row ∈ rows, row.length = N) (n i : Nat) (g : Nat → Int)
    (hin : i + n ≤ rows.length) :
    dataLoop m rows n i (cappedWidths m N g) =
      some (cappedWidths m N (fun j =>
        ((rows.drop i).take n).foldl
          (fun acc row => max acc (getCellWidth (row.getD j []))) (g j))) := by
  induction n generalizing i g with
  | zero => simp [dataLoop]
  | succ n ih =>
    have hi : i < rows.length := by omega
    have hget : rows[i]? = some rows[i] := List.getElem?_eq_getElem hi
    have hlen : rows[i].length = N := hrows _ (List.getElem_mem hi)
    have hrow := rangeLoop_capped m (dataStep m) (dataStep_widens m) rows[i] g
    rw [hlen] at hrow
    have hnext := ih (i + 1) (fun j => max (g j) (getCellWidth (rows[i].getD j []))) (by omega)
    simp only [dataLoop, hget, hrow, hnext]
    rw [List.drop_eq_getElem_cons hi]
    simp only [List.take_succ_cons, List.foldl_cons]

theorem numRowsToView_toNat (header : Row) (rows : List Row) (maxRows : Int) :
    (numRowsToView { header := header, rows := rows } maxRows).toNat =
      rowsToShow rows.length maxRows := by
  unfold numRowsToView rowsToShow InMemoryCsv.NumRows
  simp only
  split_ifs <;> omega

theorem rowsToShow_le (n : Nat) (maxRows : Int) : rowsToShow n maxRows ≤ n := by
  unfold rowsToShow
  split_ifs <;> omega

/-- The widths `View` computes, in closed form. -/
theorem viewColumnWidths_closed (header : Row) (rows : List Row) (maxWidth maxRows : Int)
    (hrows : ∀ row ∈ rows, row.length = header.length) (hmax : 1 ≤ maxWidth) :
    viewColumnWidths { header := header, rows := rows } maxWidth maxRows =
      some (closedFormWidths header (rows.take (rowsToShow rows.length maxRows)) maxWidth) := by
  have hinit : List.replicate header.length (0 : Int) =
      cappedWidths maxWidth header.length (fun _ => 0) := by
    apply List.ext_getElem?
    intro k
    simp only [cappedWidths, List.getElem?_replicate, List.getElem?_map]
    by_cases hk : k < header.length
    · rw [List.getElem?_range hk]
      simp [hk]; omega
    · have h1 : (List.range header.length)[k]? = none := by
        rw [List.getElem?_eq_none_iff]; simp; omega
      simp [hk, h1]
  have hhead := rangeLoop_capped maxWidth (headerStep maxWidth) (headerStep_widens maxWidth)
    header (fun _ => 0)
  have hg : (fun j => max (0 : Int) (getCellWidth (header.getD j []))) =
      fun j => getCellWidth (header.getD j []) := by
    funext j
    exact max_eq_right (getCellWidth_nonneg _)
  rw [hg] at hhead
  have hdata := dataLoop_capped maxWidth rows header.length hrows
    (rowsToShow rows.length maxRows) 0 (fun j => getCellWidth (header.getD j []))
    (by have := rowsToShow_le rows.length maxRows; omega)
  unfold viewColumnWidths
  simp only [InMemoryCsv.NumColumns, Int.toNat_ofNat, hinit, hhead, numRowsToView_toNat, hdata]
  rfl

/-! ## Lemmas about the rendering of `View` -/

theorem getTruncatedAndPaddedCell_of_fits (cell : Cell) (w : Int) (h : Fits cell w) :
    getTruncatedAndPaddedCell cell w = some (formatTo (firstLine cell) w.toNat) := by
  obtain ⟨h0, h1⟩ := h
  obtain ⟨n, rfl⟩ := Int.eq_ofNat_of_zero_le h0
  simp only [Int.toNat_ofNat]
  apply getTruncatedAndPaddedCell_formatTo
  omega

theorem formatTo_length_of_fits (cell : Cell) (w : Int) (h : Fits cell w) :
    (formatTo (firstLine cell) w.toNat).length = w.toNat := by
  obtain ⟨h0, h1⟩ := h
  apply formatTo_length
  omega

theorem copyLoop_eq (row : Row) (wpre wsuf : List Int) (pre suf : Row)
    (hfit : List.Forall₂ Fits row wsuf) (hw : wpre.length = pre.length)
    (hs : suf.length = row.length) :
    copyLoop (wpre ++ wsuf) row pre.length (pre ++ suf) =
      some (pre ++ formatRow wsuf row) := by
  induction hfit generalizing wpre pre suf with
  | nil =>
    cases suf with
    | nil => simp [copyLoop, formatRow]
    | cons o suf => simp at hs
  | @cons cell w rest wrest hcw _ ih =>
    cases suf with
    | nil => simp at hs
    | cons o suf =>
      simp only [List.length_cons, Nat.add_right_cancel_iff] at hs
      have hget : (wpre ++ w :: wrest)[pre.length]? = some w := by
        rw [← hw, List.getElem?_append_right (le_refl _)]; simp
      have hset : (pre ++ o :: suf).set pre.length (formatTo (firstLine cell) w.toNat) =
          (pre ++ [formatTo (firstLine cell) w.toNat]) ++ suf := by
        rw [List.set_append_right _ _ (le_refl _)]; simp
      have hlt : pre.length < (pre ++ o :: suf).length := by simp
      have hnext := ih (wpre ++ [w]) (pre ++ [formatTo (firstLine cell) w.toNat]) suf
        (by simp [hw]) hs
      simp only [List.length_append, List.length_singleton, List.append_assoc,
        List.singleton_append] at hnext
      simp only [copyLoop, hget, getTruncatedAndPaddedCell_of_fits cell w hcw, hlt, if_true]
      rw [hset]
      simp only [List.append_assoc, List.singleton_append]
      rw [hnext]
      simp [formatRow]

theorem copyTruncatedAndPaddedCellToOutputRow_eq (outrow row : Row) (widths : List Int)
    (hfit : List.Forall₂ Fits row widths) (ho : outrow.length = row.length) :
    copyTruncatedAndPaddedCellToOutputRow outrow row widths = some (formatRow widths row) := by
  have := copyLoop_eq row [] widths [] outrow hfit rfl ho
  simpa [copyTruncatedAndPaddedCellToOutputRow] using this

theorem formatRow_length (widths : List Int) (row : Row) (h : List.Forall₂ Fits row widths) :
    (formatRow widths row).length = row.length := by
  have := List.Forall₂.length_eq h
  simp [formatRow, this]

theorem formatLine_eq (widths : List Int) (row : Row) :
    formatLine (formatRow widths row) = rowLine widths row := by
  unfold formatLine rowLine
  rfl

theorem printRows_eq (rows : List Row) (widths : List Int) (border : Cell) (n i : Nat)
    (outrow : Row) (hin : i + n ≤ rows.length)
    (hfit : ∀ row ∈ (rows.drop i).take n, List.Forall₂ Fits row widths)
    (ho : outrow.length = widths.length) (hb : border = borderLine widths) :
    printRows rows widths border n i outrow = some (dataLines widths ((rows.drop i).take n)) := by
  subst hb
  induction n generalizing i outrow with
  | zero => simp [printRows, dataLines]
  | succ n ih =>
    have hi : i < rows.length := by omega
    have hget : rows[i]? = some rows[i] := List.getElem?_eq_getElem hi
    have hdrop : (rows.drop i).take (n + 1) = rows[i] :: (rows.drop (i + 1)).take n := by
      rw [List.drop_eq_getElem_cons hi]; rfl
    rw [hdrop] at hfit ⊢
    have hrow := hfit rows[i] (List.mem_cons_self _ _)
    have hcopy := copyTruncatedAndPaddedCellToOutputRow_eq outrow rows[i] widths hrow
      (by rw [ho]; exact (List.Forall₂.length_eq hrow).symm)
    have hnext := ih (i + 1) (formatRow widths rows[i]) (by omega)
      (fun row hr => hfit row (List.mem_cons_of_mem _ hr))
      (by rw [formatRow_length widths _ hrow]; exact List.Forall₂.length_eq hrow)
    simp only [printRows, hget, hcopy, hnext, formatLine_eq, dataLines]

theorem separatorCells_eq (widths : List Int) (h : ∀ w ∈ widths, 0 ≤ w) :
    separatorCells widths = some (widths.map (fun w => List.replicate w.toNat 45)) := by
  induction widths with
  | nil => rfl
  | cons w rest ih =>
    have h0 : ¬ w < 0 := by have := h w (List.mem_cons_self _ _); omega
    simp only [separatorCells, stringsRepeat, h0, if_false,
      ih (fun x hx => h x (List.mem_cons_of_mem _ hx)), List.map_cons]

theorem getRowSeparator_eq (widths : List Int) (h : ∀ w ∈ widths, 0 ≤ w) :
    getRowSeparator widths = some (borderLine widths) := by
  simp only [getRowSeparator, separatorCells_eq widths h]
  rfl

theorem firstLine_length_le_getCellWidth (cell : Cell) :
    ((firstLine cell).length : Int) ≤ getCellWidth cell := by
  unfold getCellWidth stringsIndexNewline
  rcases indexOfNewlineFrom_firstLine cell 0 with ⟨h1, h2⟩ | ⟨h1, _⟩
  · rw [h1, h2]; simp
  · rw [h1]
    simp only [Nat.zero_add]
    rw [if_pos (by omega)]
    omega

theorem foldl_max_ge_init (f : Row → Int) (l : List Row) (a : Int) :
    a ≤ l.foldl (fun acc row => max acc (f row)) a := by
  induction l generalizing a with
  | nil => exact le_refl a
  | cons r rest ih =>
    simp only [List.foldl_cons]
    exact le_trans (le_max_left _ _) (ih _)

theorem foldl_max_ge_mem (f : Row → Int) (l : List Row) (a : Int) :
    ∀ row ∈ l, f row ≤ l.foldl (fun acc row => max acc (f row)) a := by
  induction l generalizing a with
  | nil => intro row h; cases h
  | cons r rest ih =>
    intro row h
    simp only [List.foldl_cons]
    rcases List.mem_cons.1 h with h | h
    · subst h
      exact le_trans (le_max_right _ _) (foldl_max_ge_init f rest _)
    · exact ih _ row h

theorem getCellWidth_le_maxCellWidth (header : Row) (shown : List Row) (j : Nat) :
    ∀ row ∈ header :: shown, getCellWidth (row.getD j []) ≤ maxCellWidth header shown j := by
  intro row h
  unfold maxCellWidth
  rcases List.mem_cons.1 h with h | h
  · subst h
    exact foldl_max_ge_init (fun r => getCellWidth (r.getD j [])) shown _
  · exact foldl_max_ge_mem (fun r => getCellWidth (r.getD j [])) shown _ row h

theorem closedFormWidths_length (header : Row) (shown : List Row) (m : Int) :
    (closedFormWidths header shown m).length = header.length := by
  simp [closedFormWidths]

theorem closedFormWidths_getElem? (header : Row) (shown : List Row) (m : Int) (j : Nat)
    (hj : j < header.length) :
    (closedFormWidths header shown m)[j]? = some (min m (maxCellWidth header shown j)) := by
  simp [closedFormWidths, List.getElem?_map, List.getElem?_range hj]

theorem closedFormWidths_nonneg (header : Row) (shown : List Row) (m : Int) (hm : 1 ≤ m) :
    ∀ w ∈ closedFormWidths header shown m, 0 ≤ w := by
  intro w hw
  obtain ⟨j, _, hj⟩ := List.mem_map.1 hw
  rw [← hj]
  have h1 := getCellWidth_le_maxCellWidth header shown j header (List.mem_cons_self _ _)
  have h2 := getCellWidth_nonneg (header.getD j [])
  exact le_min (by omega) (le_trans h2 h1)

theorem closedFormWidths_le (header : Row) (shown : List Row) (m : Int) :
    ∀ w ∈ closedFormWidths header shown m, w ≤ m := by
  intro w hw
  obtain ⟨j, _, hj⟩ := List.mem_map.1 hw
  rw [← hj]
  exact min_le_left _ _

theorem fits_closedFormWidths (header : Row) (shown : List Row) (m : Int) (hm : 3 ≤ m)
    (row : Row) (hrow : row ∈ header :: shown) (hlen : row.length = header.length) :
    List.Forall₂ Fits row (closedFormWidths header shown m) := by
  apply List.forall₂_of_length_eq_of_get
  · rw [closedFormWidths_length, hlen]
  · intro i h1 h2
    have hw : (closedFormWidths header shown m).get ⟨i, h2⟩ =
        min m (maxCellWidth header shown i) := by
      simp [closedFormWidths]
    have hcell : row.getD i [] = row.get ⟨i, h1⟩ := by
      simp [List.getD_eq_getElem?_getD, List.getElem?_eq_getElem h1]
    have hle := getCellWidth_le_maxCellWidth header shown i row hrow
    rw [hcell] at hle
    have hfl := firstLine_length_le_getCellWidth (row.get ⟨i, h1⟩)
    have hnn := getCellWidth_nonneg (row.get ⟨i, h1⟩)
    rw [hw]
    refine ⟨le_min (by omega) (by omega), ?_⟩
    rcases le_total m (maxCellWidth header shown i) with h | h
    · left; rw [min_eq_left h]; exact hm
    · right; rw [min_eq_right h]; omega

/-- What `View` prints for a dataset whose data rows have the header's length, when
`maxWidth` is at least 3. -/
theorem View_eq (header : Row) (rows : List Row) (maxWidth maxRows : Int)
    (hrows : ∀ row ∈ rows, row.length = header.length) (hmax : 3 ≤ maxWidth) :
    View { header := header, rows := rows } maxWidth maxRows =
      some (borderLine (closedFormWidths header (rows.take (rowsToShow rows.length maxRows))
          maxWidth) ::
        rowLine (closedFormWidths header (rows.take (rowsToShow rows.length maxRows))
          maxWidth) header ::
        borderLine (closedFormWidths header (rows.take (rowsToShow rows.length maxRows))
          maxWidth) ::
        dataLines (closedFormWidths header (rows.take (rowsToShow rows.length maxRows))
          maxWidth) (rows.take (rowsToShow rows.length maxRows))) := by
  have hw := viewColumnWidths_closed header rows maxWidth maxRows hrows (by omega)
  generalize hshown : rows.take (rowsToShow rows.length maxRows) = shown at hw ⊢
  have hsub : ∀ row ∈ shown, row ∈ rows := by
    intro row hr; rw [← hshown] at hr; exact List.mem_of_mem_take hr
  have hsep := getRowSeparator_eq (closedFormWidths header shown maxWidth)
    (closedFormWidths_nonneg header shown maxWidth (by omega))
  have hhead := copyTruncatedAndPaddedCellToOutputRow_eq
    (List.replicate header.length []) header (closedFormWidths header shown maxWidth)
    (fits_closedFormWidths header shown maxWidth hmax header (List.mem_cons_self _ _) rfl)
    (by simp)
  have hdata := printRows_eq rows (closedFormWidths header shown maxWidth)
    (borderLine (closedFormWidths header shown maxWidth)) (rowsToShow rows.length maxRows) 0
    (formatRow (closedFormWidths header shown maxWidth) header)
    (by have := rowsToShow_le rows.length maxRows; omega)
    (by
      intro row hr
      rw [List.drop_zero, hshown] at hr
      exact fits_closedFormWidths header shown maxWidth hmax row
        (List.mem_cons_of_mem _ hr) (hrows row (hsub row hr)))
    (by
      rw [formatRow_length _ _ (fits_closedFormWidths header shown maxWidth hmax header
        (List.mem_cons_self _ _) rfl), closedFormWidths_length])
    rfl
  rw [List.drop_zero, hshown] at hdata
  unfold View
  simp only [hw, hsep, InMemoryCsv.NumColumns, Int.toNat_ofNat, hhead, numRowsToView_toNat,
    hdata, formatLine_eq]

theorem firstLine_of_no_newline (cell : Cell) (h : 10 ∉ cell) : firstLine cell = cell := by
  induction cell with
  | nil => rfl
  | cons b rest ih =>
    have hb : b ≠ 10 := fun e => h (by simp [e])
    rw [firstLine_cons, if_neg hb, ih (fun e => h (List.mem_cons_of_mem _ e))]

theorem firstLine_append_newline (line rest : Cell) (h : 10 ∉ line) :
    firstLine (line ++ 10 :: rest) = line := by
  induction line with
  | nil => simp [firstLine]
  | cons b line ih =>
    have hb : b ≠ 10 := fun e => h (by simp [e])
    rw [List.cons_append, firstLine_cons, if_neg hb, ih (fun e => h (List.mem_cons_of_mem _ e))]

theorem stringsJoin_length_congr (sep1 sep2 : Cell) (l1 l2 : List Cell)
    (hs : sep1.length = sep2.length)
    (hl : List.Forall₂ (fun a b => a.length = b.length) l1 l2) :
    (stringsJoin sep1 l1).length = (stringsJoin sep2 l2).length := by
  induction hl with
  | nil => rfl
  | @cons a b r1 r2 hab hrest ih =>
    cases hrest with
    | nil => simpa [stringsJoin] using hab
    | @cons a2 b2 r1 r2 hab2 hrest2 =>
      simp only [stringsJoin, List.length_append] at ih ⊢
      omega

theorem formatRow_lengths (widths : List Int) (row : Row) (h : List.Forall₂ Fits row widths) :
    List.Forall₂ (fun a b => a.length = b.length) (formatRow widths row)
      (widths.map (fun w => List.replicate w.toNat 45)) := by
  induction h with
  | nil => exact List.Forall₂.nil
  | @cons cell w rest wrest hcw _ ih =>
    refine List.Forall₂.cons ?_ ih
    rw [formatTo_length_of_fits cell w hcw]
    simp

theorem rowLine_length (widths : List Int) (row : Row) (h : List.Forall₂ Fits row widths) :
    (rowLine widths row).length = (borderLine widths).length := by
  have hj := stringsJoin_length_congr (ascii " | ") (ascii "-+-") _ _ (by decide)
    (formatRow_lengths widths row h)
  have h1 : (ascii "| ").length = 2 := by decide
  have h2 : (ascii " |").length = 2 := by decide
  have h3 : (ascii "+-").length = 2 := by decide
  have h4 : (ascii "-+").length = 2 := by decide
  simp only [rowLine, borderLine, List.length_append, hj, h1, h2, h3, h4]

theorem dataLines_length (widths : List Int) (l : List Row) :
    (dataLines widths l).length = 2 * l.length := by
  induction l with
  | nil => rfl
  | cons r rest ih => simp only [dataLines, List.length_cons, ih]; omega

theorem mem_dataLines (widths : List Int) (l : List Row) (line : Cell)
    (h : line ∈ dataLines widths l) :
    line = borderLine widths ∨ ∃ row ∈ l, line = rowLine widths row := by
  induction l with
  | nil => cases h
  | cons r rest ih =>
    simp only [dataLines, List.mem_cons] at h
    rcases h with h | h | h
    · right; exact ⟨r, List.mem_cons_self _ _, h⟩
    · left; exact h
    · rcases ih h with h2 | ⟨row, hr, h2⟩
      · left; exact h2
      · right; exact ⟨row, List.mem_cons_of_mem _ hr, h2⟩

theorem forall₂_getElem? {α β : Type} (R : α → β → Prop) (l1 : List α) (l2 : List β)
    (h : List.Forall₂ R l1 l2) (j : Nat) (a : α) (b : β)
    (ha : l1[j]? = some a) (hb : l2[j]? = some b) : R a b := by
  induction h generalizing j with
  | nil => simp at ha
  | @cons x y r1 r2 hxy _ ih =>
    cases j with
    | zero =>
      simp only [List.getElem?_cons_zero, Option.some.injEq] at ha hb
      rw [← ha, ← hb]; exact hxy
    | succ j =>
      simp only [List.getElem?_cons_succ] at ha hb
      exact ih j ha hb

theorem length_take_rowsToShow (rows : List Row) (maxRows : Int) :
    (rows.take (rowsToShow rows.length maxRows)).length = rowsToShow rows.length maxRows := by
  have := rowsToShow_le rows.length maxRows
  simp only [List.length_take]; omega

/-! ## The claims about `getTruncatedAndPaddedCell` -/

/-- Claim C11. For a width `W` of at least 3, `getTruncatedAndPaddedCell(cell, W)` returns a
string of length exactly `W`: with `L` the first line of the cell (the text before its first
line break, the whole cell if it has none), the result is `L` if `len(L) = W`, `L` followed by
`W - len(L)` spaces if `len(L) < W`, and the first `W - 3` bytes of `L` followed by `...` if
`len(L) > W`. `"abcdefghij"` at width 6 gives `"abc..."`. -/
theorem getTruncatedAndPaddedCell_has_width (cell : Cell) (W : Int) (hW : 3 ≤ W) :
    (∃ r, getTruncatedAndPaddedCell cell W = some r ∧ (r.length : Int) = W ∧
      (((firstLine cell).length : Int) = W → r = firstLine cell) ∧
      (((firstLine cell).length : Int) < W →
        r = firstLine cell ++ List.replicate (W - (firstLine cell).length).toNat 32) ∧
      (((firstLine cell).length : Int) > W →
        r = (firstLine cell).take (W - 3).toNat ++ ascii "...")) ∧
    (10 ∉ cell → firstLine cell = cell) ∧
    (∀ line rest : Cell, 10 ∉ line → cell = line ++ 10 :: rest → firstLine cell = line) ∧
    getTruncatedAndPaddedCell (ascii "abcdefghij") 6 = some (ascii "abc...") := by
  refine ⟨?_, firstLine_of_no_newline cell, ?_, by decide⟩
  · obtain ⟨w, rfl⟩ := Int.eq_ofNat_of_zero_le (by omega : 0 ≤ W)
    have h3 : 3 ≤ w := by omega
    refine ⟨formatTo (firstLine cell) w, getTruncatedAndPaddedCell_formatTo cell w (Or.inl h3),
      ?_, ?_, ?_, ?_⟩
    · rw [formatTo_length _ _ (Or.inl h3)]
    · intro h
      have : (firstLine cell).length = w := by omega
      simp [formatTo, this]
    · intro h
      have h1 : ¬ (firstLine cell).length = w := by omega
      have h2 : (firstLine cell).length < w := by omega
      have e : ((w : Int) - ((firstLine cell).length : Int)).toNat =
          w - (firstLine cell).length := by omega
      simp only [formatTo, h1, if_false, h2, if_true, e]
    · intro h
      have h1 : ¬ (firstLine cell).length = w := by omega
      have h2 : ¬ (firstLine cell).length < w := by omega
      have e : ((w : Int) - 3).toNat = w - 3 := by omega
      simp only [formatTo, h1, if_false, h2, e]
  · intro line rest hl hc
    rw [hc]; exact firstLine_append_newline line rest hl

/-- Claim C11 at the cell `"line1\\nline2"` and the width 5. -/
theorem getTruncatedAndPaddedCell_has_width_witness :
    (3 : Int) ≤ 5 ∧
    ((∃ r, getTruncatedAndPaddedCell twoLineCell 5 = some r ∧ (r.length : Int) = 5 ∧
      (((firstLine twoLineCell).length : Int) = 5 → r = firstLine twoLineCell) ∧
      (((firstLine twoLineCell).length : Int) < 5 →
        r = firstLine twoLineCell ++
          List.replicate ((5 : Int) - (firstLine twoLineCell).length).toNat 32) ∧
      (((firstLine twoLineCell).length : Int) > 5 →
        r = (firstLine twoLineCell).take ((5 : Int) - 3).toNat ++ ascii "...")) ∧
    (10 ∉ twoLineCell → firstLine twoLineCell = twoLineCell) ∧
    (∀ line rest : Cell, 10 ∉ line → twoLineCell = line ++ 10 :: rest →
      firstLine twoLineCell = line) ∧
    getTruncatedAndPaddedCell (ascii "abcdefghij") 6 = some (ascii "abc...")) :=
  ⟨by decide, getTruncatedAndPaddedCell_has_width twoLineCell 5 (by decide)⟩

/-- Claim C12, evaluated on the code. For a width of 1 or 2 and a cell whose first line is
longer than the width, `getTruncatedAndPaddedCell` does not return: the slice
`lineString[:width-3]` has a negative bound, a run-time panic. `"abc"` at width 2 and at
width 1 panics, and so does `View` on the header `["abc"]` with `maxWidth = 2`, which
`RunView` accepts. -/
theorem getTruncatedAndPaddedCell_faults_below_three :
    getTruncatedAndPaddedCell (ascii "abc") 2 = none ∧
    getTruncatedAndPaddedCell (ascii "abc") 1 = none ∧
    viewColumnWidths longHeaderCell 2 0 = some [2] ∧
    View longHeaderCell 2 0 = none ∧
    (∀ (cell : Cell) (W : Int), 1 ≤ W → W < 3 → ((firstLine cell).length : Int) > W →
      getTruncatedAndPaddedCell cell W = none) := by
  refine ⟨by decide, by decide, by decide, by decide, ?_⟩
  intro cell W _ h3 hlen
  exact getTruncatedAndPaddedCell_panics cell W h3 hlen

/-- Claim C13. For a width `W` of at least 3, the string `getTruncatedAndPaddedCell(cell, W)`
returns contains no line break and is the one returned for the first line of the cell
alone. -/
theorem getTruncatedAndPaddedCell_shows_first_line_only (cell : Cell) (W : Int)
    (hW : 3 ≤ W) :
    ∃ r, getTruncatedAndPaddedCell cell W = some r ∧ 10 ∉ r ∧
      getTruncatedAndPaddedCell (firstLine cell) W = some r := by
  obtain ⟨w, rfl⟩ := Int.eq_ofNat_of_zero_le (by omega : 0 ≤ W)
  have h := getTruncatedAndPaddedCell_formatTo cell w (Or.inl (by omega))
  refine ⟨formatTo (firstLine cell) w, h,
    formatTo_no_newline _ _ (firstLine_no_newline cell), ?_⟩
  rw [getTruncatedAndPaddedCell_firstLine]; exact h

/-- Claim C13 at the cell `"line1\\nline2"` and the width 6. -/
theorem getTruncatedAndPaddedCell_shows_first_line_only_witness :
    (3 : Int) ≤ 6 ∧ firstLine twoLineCell = ascii "line1" ∧
    ∃ r, getTruncatedAndPaddedCell twoLineCell 6 = some r ∧ 10 ∉ r ∧
      getTruncatedAndPaddedCell (firstLine twoLineCell) 6 = some r :=
  ⟨by decide, by decide,
    getTruncatedAndPaddedCell_shows_first_line_only twoLineCell 6 (by decide)⟩

/-! ## Further claims about `clean` -/

/-- Claim C14 as stated fails: in no dataset does a row have a non-empty cell at an index at
or beyond `numColumns`, since `numColumns` is taken over all rows, that row included. -/
theorem no_nonempty_cell_beyond_numColumns :
    ¬ ∃ (rows : List Row) (row : Row) (j : Nat) (c : Cell),
        row ∈ rows ∧ row[j]? = some c ∧ c ≠ [] ∧ numColumns rows ≤ (j : Int) := by
  rintro ⟨rows, row, j, c, hrow, hc, hne, hge⟩
  have := numColumns_ge_of_cell rows row hrow j c hc hne
  omega

/-- Claim C14, amended. In every dataset, the cells of a row at an index at or beyond
`numColumns`, those the truncation branch discards, are all empty; every non-empty cell of a
row lies below `numColumns`, is kept at its index by the truncation branch whatever the
scratch row held, and is present at its index in the row `Clean` writes for it (limit flags
off). -/
theorem truncation_discards_only_empty_cells (rows : List Row) (noTrim : Bool) (i : Nat)
    (row : Row) (hrow : rows[i]? = some row) :
    (∀ (j : Nat) (c : Cell), row[j]? = some c → numColumns rows ≤ (j : Int) → c = []) ∧
    (∀ (j : Nat) (c : Cell), row[j]? = some c → c ≠ [] →
      (j : Int) < numColumns rows ∧
      (∀ shellRow : Row, shellRow.length = (numColumns rows).toNat →
        (fixRow (numColumns rows) shellRow row)[j]? = some c) ∧
      ∃ out, (Clean rows noTrim false false)[i]? = some out ∧ out[j]? = some c) := by
  have hmem : row ∈ rows := List.getElem?_mem hrow
  refine ⟨?_, ?_⟩
  · intro j c hc hge
    by_contra hne
    have := numColumns_ge_of_cell rows row hmem j c hc hne
    omega
  · intro j c hc hne
    have hlt := cell_index_lt_numColumns rows row hmem j c hc hne
    refine ⟨by omega, fun shellRow hs => fixRow_getElem? rows row hmem j c hc hne shellRow hs,
      outRow (numColumns rows).toNat false row,
      clean_getElem?_of_not_empty rows noTrim false i row hrow
        (not_rowEmpty_of_cell row j c hc hne), ?_⟩
    simpa using outRow_getElem? (numColumns rows).toNat false row j c hlt hc

/-- Claim C14, amended, at row 0 of `["a","b",""], ["c"]`, which is longer than the
canonical width 2 and is written as `["a","b"]`. -/
theorem truncation_discards_only_empty_cells_witness :
    wideRows[0]? = some [ascii "a", ascii "b", []] ∧ numColumns wideRows = 2 ∧
    Clean wideRows false false false = [[ascii "a", ascii "b"], [ascii "c", []]] ∧
    (∀ (j : Nat) (c : Cell), ([ascii "a", ascii "b", []] : Row)[j]? = some c →
      numColumns wideRows ≤ (j : Int) → c = []) ∧
    (∀ (j : Nat) (c : Cell), ([ascii "a", ascii "b", []] : Row)[j]? = some c → c ≠ [] →
      (j : Int) < numColumns wideRows ∧
      (∀ shellRow : Row, shellRow.length = (numColumns wideRows).toNat →
        (fixRow (numColumns wideRows) shellRow [ascii "a", ascii "b", []])[j]? = some c) ∧
      ∃ out, (Clean wideRows false false false)[0]? = some out ∧ out[j]? = some c) :=
  ⟨by decide, by decide, by decide,
    truncation_discards_only_empty_cells wideRows false 0 [ascii "a", ascii "b", []]
      (by decide)⟩

/-- On lists of rows, with `numbers` off, `Clean` applied to the rows it wrote writes those
rows again. -/
theorem clean_clean (rows : List Row) (noTrim excel : Bool) :
    Clean (Clean rows noTrim excel false) noTrim excel false =
      Clean rows noTrim excel false := by
  conv => lhs; rw [Clean_eq]
  rw [emitCount_clean, List.take_length, numColumns_clean]
  conv => rhs; rw [← List.map_id (Clean rows noTrim excel false)]
  apply List.map_congr_left
  intro out hout
  rw [Clean_eq] at hout
  obtain ⟨row, _, hrow⟩ := List.mem_map.1 hout
  rw [← hrow]
  exact outRow_idem _ _ _

/-- Claim C19. With `noTrim` and `numbers` off and any `excel`, the output of `Clean` is
empty or ends with a row that has a non-empty cell. -/
theorem clean_output_has_no_trailing_empty_row (rows : List Row) (excel : Bool) :
    Clean rows false excel false = [] ∨
    ∃ last, (Clean rows false excel false).getLast? = some last ∧ ∃ c ∈ last, c ≠ [] := by
  rcases clean_last_not_empty rows excel with h | ⟨last, hl, hne⟩
  · left; exact h
  · right
    refine ⟨last, hl, ?_⟩
    unfold RowEmpty at hne
    push_neg at hne
    exact hne

/-! ## Further claims about `view` -/

/-- Claim C15. For a header, data rows of the header's length and a `maxWidth` of at least
3, `View` prints exactly `3 + 2 * rowsToShow` lines: the border, the header line, the
border, then for each of the first `rowsToShow` data rows in order its line followed by the
border. The border is what `getRowSeparator` returns: `+-`, one run of `ColumnWidth[j]`
dashes per column joined by `-+-`, then `-+`; the line of a row is made of the cells that
`copyTruncatedAndPaddedCellToOutputRow` writes. -/
theorem view_prints_bordered_table (header : Row) (rows : List Row) (maxWidth maxRows : Int)
    (hrows : ∀ row ∈ rows, row.length = header.length) (hmax : 3 ≤ maxWidth) :
    ∃ widths lines,
      viewColumnWidths { header := header, rows := rows } maxWidth maxRows = some widths ∧
      View { header := header, rows := rows } maxWidth maxRows = some lines ∧
      lines = borderLine widths :: rowLine widths header :: borderLine widths ::
        dataLines widths (rows.take (rowsToShow rows.length maxRows)) ∧
      lines.length = 3 + 2 * rowsToShow rows.length maxRows ∧
      getRowSeparator widths = some (borderLine widths) ∧
      (∀ row ∈ header :: rows.take (rowsToShow rows.length maxRows), ∀ outrow : Row,
        outrow.length = header.length →
        copyTruncatedAndPaddedCellToOutputRow outrow row widths =
          some (formatRow widths row)) := by
  have hw := viewColumnWidths_closed header rows maxWidth maxRows hrows (by omega)
  have hv := View_eq header rows maxWidth maxRows hrows hmax
  refine ⟨_, _, hw, hv, rfl, ?_, ?_, ?_⟩
  · simp only [List.length_cons, dataLines_length, length_take_rowsToShow]
    omega
  · exact getRowSeparator_eq _ (closedFormWidths_nonneg _ _ _ (by omega))
  · intro row hrow outrow ho
    have hlen : row.length = header.length := by
      rcases List.mem_cons.1 hrow with h | h
      · rw [h]
      · exact hrows row (List.mem_of_mem_take h)
    exact copyTruncatedAndPaddedCellToOutputRow_eq outrow row _
      (fits_closedFormWidths header _ maxWidth hmax row hrow hlen) (by rw [ho, hlen])

/-- Claim C15 at the specification's example, `maxWidth = 10` and `maxRows = 0`. -/
theorem view_prints_bordered_table_witness :
    (∀ row ∈ noteExample.rows, row.length = noteExample.header.length) ∧ (3 : Int) ≤ 10 ∧
    View noteExample 10 0 = some [ascii "+------+--------+", ascii "| Name | Note   |",
      ascii "+------+--------+", ascii "| Al   | line1  |", ascii "+------+--------+"] ∧
    ∃ widths lines,
      viewColumnWidths noteExample 10 0 = some widths ∧
      View noteExample 10 0 = some lines ∧
      lines = borderLine widths :: rowLine widths noteExample.header :: borderLine widths ::
        dataLines widths
          (noteExample.rows.take (rowsToShow noteExample.rows.length 0)) ∧
      lines.length = 3 + 2 * rowsToShow noteExample.rows.length 0 ∧
      getRowSeparator widths = some (borderLine widths) ∧
      (∀ row ∈ noteExample.header ::
          noteExample.rows.take (rowsToShow noteExample.rows.length 0),
        ∀ outrow : Row, outrow.length = noteExample.header.length →
        copyTruncatedAndPaddedCellToOutputRow outrow row widths =
          some (formatRow widths row)) :=
  ⟨by decide, by decide, by decide,
    view_prints_bordered_table noteExample.header noteExample.rows 10 0
      (by decide) (by decide)⟩

/-- Claim C16. For a header, data rows of the header's length, a `maxWidth` of at least 1
and any `maxRows`, the widths `View` computes are the closed form: for each header column
`j`, `min(maxWidth, max of getCellWidth over cell j of the header and of the first
rowsToShow data rows)`. Two lists of data rows that agree on the rows shown give the same
widths. -/
theorem view_widths_equal_closed_form (header : Row) (rows : List Row)
    (maxWidth maxRows : Int)
    (hrows : ∀ row ∈ rows, row.length = header.length) (hmax : 1 ≤ maxWidth) :
    viewColumnWidths { header := header, rows := rows } maxWidth maxRows =
      some (closedFormWidths header (rows.take (rowsToShow rows.length maxRows)) maxWidth) ∧
    (closedFormWidths header (rows.take (rowsToShow rows.length maxRows)) maxWidth).length =
      header.length ∧
    (∀ j, j < header.length →
      (closedFormWidths header (rows.take (rowsToShow rows.length maxRows)) maxWidth)[j]? =
        some (min maxWidth
          (maxCellWidth header (rows.take (rowsToShow rows.length maxRows)) j))) ∧
    (∀ other : List Row, (∀ row ∈ other, row.length = header.length) →
      other.take (rowsToShow other.length maxRows) =
        rows.take (rowsToShow rows.length maxRows) →
      viewColumnWidths { header := header, rows := other } maxWidth maxRows =
        viewColumnWidths { header := header, rows := rows } maxWidth maxRows) := by
  have hw := viewColumnWidths_closed header rows maxWidth maxRows hrows hmax
  refine ⟨hw, closedFormWidths_length _ _ _,
    fun j hj => closedFormWidths_getElem? _ _ _ j hj, ?_⟩
  intro other hother hsame
  rw [hw, viewColumnWidths_closed header other maxWidth maxRows hother hmax, hsame]

/-- Claim C16 at the specification's example, `maxWidth = 10` and `maxRows = 0`. -/
theorem view_widths_equal_closed_form_witness :
    (∀ row ∈ noteExample.rows, row.length = noteExample.header.length) ∧ (1 : Int) ≤ 10 ∧
    closedFormWidths noteExample.header
      (noteExample.rows.take (rowsToShow noteExample.rows.length 0)) 10 = [4, 6] ∧
    viewColumnWidths noteExample 10 0 =
      some (closedFormWidths noteExample.header
        (noteExample.rows.take (rowsToShow noteExample.rows.length 0)) 10) :=
  ⟨by decide, by decide, by decide,
    (view_widths_equal_closed_form noteExample.header noteExample.rows 10 0
      (by decide) (by decide)).1⟩

/-- Claim C17 as stated fails: on the header `["a"]` with the data row `["b","c"]` and
`maxWidth = 10`, the width loop of `View` reads `columnWidths[1]` in an array of one entry,
an index out of range, and the width computation and `View` panic. The loop body does so
for every column index at or beyond the length of the array. -/
theorem view_indexes_beyond_header_on_long_row :
    dataStep 10 [1] 1 (ascii "c") = none ∧
    viewColumnWidths longDataRow 10 0 = none ∧
    View longDataRow 10 0 = none ∧
    (∀ (maxWidth : Int) (columnWidths : List Int) (j : Nat) (cell : Cell),
      columnWidths.length ≤ j → dataStep maxWidth columnWidths j cell = none) := by
  refine ⟨by decide, by decide, by decide, ?_⟩
  intro maxWidth columnWidths j cell hj
  unfold dataStep
  rw [List.getElem?_eq_none hj]

/-- Claim C20. For a header, data rows of the header's length and a `maxWidth` of at least
3, every line `View` prints has the length of the border line, and every cell of the header
and of the data rows shown, formatted to the width of its column, has exactly that
length. -/
theorem view_lines_align (header : Row) (rows : List Row) (maxWidth maxRows : Int)
    (hrows : ∀ row ∈ rows, row.length = header.length) (hmax : 3 ≤ maxWidth) :
    ∃ widths border lines,
      viewColumnWidths { header := header, rows := rows } maxWidth maxRows = some widths ∧
      getRowSeparator widths = some border ∧
      View { header := header, rows := rows } maxWidth maxRows = some lines ∧
      (∀ line ∈ lines, line.length = border.length) ∧
      (∀ row ∈ header :: rows.take (rowsToShow rows.length maxRows),
        ∀ (j : Nat) (cell : Cell) (w : Int), row[j]? = some cell → widths[j]? = some w →
          ∃ formatted, getTruncatedAndPaddedCell cell w = some formatted ∧
            (formatted.length : Int) = w) := by
  have hw := viewColumnWidths_closed header rows maxWidth maxRows hrows (by omega)
  have hv := View_eq header rows maxWidth maxRows hrows hmax
  have hfit : ∀ row ∈ header :: rows.take (rowsToShow rows.length maxRows),
      List.Forall₂ Fits row
        (closedFormWidths header (rows.take (rowsToShow rows.length maxRows)) maxWidth) := by
    intro row hrow
    have hlen : row.length = header.length := by
      rcases List.mem_cons.1 hrow with h | h
      · rw [h]
      · exact hrows row (List.mem_of_mem_take h)
    exact fits_closedFormWidths header _ maxWidth hmax row hrow hlen
  refine ⟨_, _, _, hw, getRowSeparator_eq _ (closedFormWidths_nonneg _ _ _ (by omega)), hv,
    ?_, ?_⟩
  · intro line hline
    simp only [List.mem_cons] at hline
    rcases hline with h | h | h | h
    · rw [h]
    · rw [h]; exact rowLine_length _ _ (hfit header (List.mem_cons_self _ _))
    · rw [h]
    · rcases mem_dataLines _ _ _ h with h2 | ⟨row, hr, h2⟩
      · rw [h2]
      · rw [h2]; exact rowLine_length _ _ (hfit row (List.mem_cons_of_mem _ hr))
  · intro row hrow j cell w hcell hwj
    have hf : Fits cell w := forall₂_getElem? Fits _ _ (hfit row hrow) j cell w hcell hwj
    refine ⟨_, getTruncatedAndPaddedCell_of_fits cell w hf, ?_⟩
    rw [formatTo_length_of_fits cell w hf]
    exact Int.toNat_of_nonneg hf.1

/-- Claim C20 at the specification's example, `maxWidth = 10` and `maxRows = 0`. -/
theorem view_lines_align_witness :
    (∀ row ∈ noteExample.rows, row.length = noteExample.header.length) ∧ (3 : Int) ≤ 10 ∧
    ∃ widths border lines,
      viewColumnWidths noteExample 10 0 = some widths ∧
      getRowSeparator widths = some border ∧
      View noteExample 10 0 = some lines ∧
      (∀ line ∈ lines, line.length = border.length) ∧
      (∀ row ∈ noteExample.header ::
          noteExample.rows.take (rowsToShow noteExample.rows.length 0),
        ∀ (j : Nat) (cell : Cell) (w : Int), row[j]? = some cell → widths[j]? = some w →
          ∃ formatted, getTruncatedAndPaddedCell cell w = some formatted ∧
            (formatted.length : Int) = w) :=
  ⟨by decide, by decide,
    view_lines_align noteExample.header noteExample.rows 10 0 (by decide) (by decide)⟩

/-! ## Lemmas about `View` on rows no longer than the header -/

theorem viewColumnWidths_some (header : Row) (rows : List Row) (maxWidth maxRows : Int)
    (hrows : ∀ row ∈ rows, row.length ≤ header.length) (hmax : 1 ≤ maxWidth) :
    ∃ widths, viewColumnWidths { header := header, rows := rows } maxWidth maxRows =
      some widths ∧ widths.length = header.length := by
  have hinit : WidthsBounded maxWidth (List.replicate header.length (0 : Int)) := by
    intro x hx
    rw [List.eq_of_mem_replicate hx]; omega
  have hlen0 : (List.replicate header.length (0 : Int)).length = header.length := by simp
  obtain ⟨t1, _, hl1, _, ha1⟩ :=
    rangeTrace_good maxWidth (headerStep maxWidth) (headerStep_good maxWidth) header 0
      (List.replicate header.length 0) (by simp) hinit
  obtain ⟨hb1, hn1⟩ := getLastD_good maxWidth _ _ t1 hinit rfl ha1
  obtain ⟨t2, _, hl2, _, ha2⟩ :=
    dataTrace_good maxWidth rows
      (numRowsToView { header := header, rows := rows } maxRows).toNat 0
      (t1.getLastD (List.replicate header.length 0))
      (by rw [hn1, hlen0]; exact hrows)
      (by simpa using numRowsToView_le { header := header, rows := rows } maxRows) hb1
  obtain ⟨_, hn2⟩ := getLastD_good maxWidth _ _ t2 hb1 rfl ha2
  refine ⟨t2.getLastD (t1.getLastD (List.replicate header.length 0)), ?_, ?_⟩
  · simp only [viewColumnWidths, InMemoryCsv.NumColumns, Int.toNat_ofNat, hl1, hl2]
  · rw [hn2, hn1, hlen0]

theorem copyLoop_some_or_cell (widths : List Int) (row : Row) (i : Nat) (outrow : Row)
    (hw : i + row.length ≤ widths.length) (ho : i + row.length ≤ outrow.length) :
    (∃ written, copyLoop widths row i outrow = some written ∧
      written.length = outrow.length) ∨
    (∃ (k : Nat) (cell : Cell) (w : Int), row[k]? = some cell ∧ widths[i + k]? = some w ∧
      getTruncatedAndPaddedCell cell w = none) := by
  induction row generalizing i outrow with
  | nil => left; exact ⟨outrow, rfl, rfl⟩
  | cons cell rest ih =>
    simp only [List.length_cons] at hw ho
    have hi : i < widths.length := by omega
    have hget : widths[i]? = some widths[i] := List.getElem?_eq_getElem hi
    cases hf : getTruncatedAndPaddedCell cell widths[i] with
    | none =>
      right
      exact ⟨0, cell, widths[i], by simp, by rw [Nat.add_zero]; exact hget, hf⟩
    | some formatted =>
      have hlt : i < outrow.length := by omega
      rcases ih (i + 1) (outrow.set i formatted) (by omega) (by simp; omega) with
        ⟨written, h1, h2⟩ | ⟨k, c, w, h1, h2, h3⟩
      · left
        refine ⟨written, ?_, by simpa using h2⟩
        simp only [copyLoop, hget, hf, hlt, if_true, h1]
      · right
        refine ⟨k + 1, c, w, by simpa using h1, ?_, h3⟩
        rw [show i + (k + 1) = i + 1 + k by omega]; exact h2

/-- Claim C17, amended. For a header, data rows none of which has more cells than the header
(shorter rows included) and a `maxWidth` of at least 1, the width computation of `View`
returns an array of one entry per header cell, every cell index of the header and of the
data rows shown is an index of that array, and formatting such a row into an output row of
the header's length either succeeds or stops on the formatting of one cell whose column is
in the array, never on an index. -/
theorem view_indexes_within_header (header : Row) (rows : List Row) (maxWidth maxRows : Int)
    (hrows : ∀ row ∈ rows, row.length ≤ header.length) (hmax : 1 ≤ maxWidth) :
    ∃ widths,
      viewColumnWidths { header := header, rows := rows } maxWidth maxRows = some widths ∧
      widths.length = header.length ∧
      (∀ row ∈ header :: rows.take (rowsToShow rows.length maxRows),
        ∀ (j : Nat) (cell : Cell), row[j]? = some cell →
          j < header.length ∧ ∃ w, widths[j]? = some w) ∧
      (∀ row ∈ header :: rows.take (rowsToShow rows.length maxRows), ∀ outrow : Row,
        outrow.length = header.length →
        (∃ written, copyTruncatedAndPaddedCellToOutputRow outrow row widths = some written ∧
          written.length = header.length) ∨
        (∃ (j : Nat) (cell : Cell) (w : Int), row[j]? = some cell ∧ widths[j]? = some w ∧
          getTruncatedAndPaddedCell cell w = none)) := by
  obtain ⟨widths, hw, hlen⟩ := viewColumnWidths_some header rows maxWidth maxRows hrows hmax
  have hle : ∀ row ∈ header :: rows.take (rowsToShow rows.length maxRows),
      row.length ≤ header.length := by
    intro row hrow
    rcases List.mem_cons.1 hrow with h | h
    · rw [h]
    · exact hrows row (List.mem_of_mem_take h)
  refine ⟨widths, hw, hlen, ?_, ?_⟩
  · intro row hrow j cell hcell
    have hj : j < row.length := (List.getElem?_eq_some_iff.1 hcell).1
    have hjh : j < header.length := lt_of_lt_of_le hj (hle row hrow)
    have hjw : j < widths.length := by omega
    exact ⟨hjh, widths[j], List.getElem?_eq_getElem hjw⟩
  · intro row hrow outrow ho
    have := copyLoop_some_or_cell widths row 0 outrow
      (by have := hle row hrow; omega) (by have := hle row hrow; omega)
    simp only [Nat.zero_add] at this
    rcases this with ⟨written, h1, h2⟩ | h
    · left; exact ⟨written, h1, by rw [h2, ho]⟩
    · right; exact h

/-- Claim C17, amended, at the header `["a","bb"]` with the shorter data row `["b"]`,
`maxWidth = 10` and `maxRows = 0`. -/
theorem view_indexes_within_header_witness :
    (∀ row ∈ shortDataRow.rows, row.length ≤ shortDataRow.header.length) ∧ (1 : Int) ≤ 10 ∧
    viewColumnWidths shortDataRow 10 0 = some [1, 2] ∧
    ∃ widths,
      viewColumnWidths shortDataRow 10 0 = some widths ∧
      widths.length = shortDataRow.header.length ∧
      (∀ row ∈ shortDataRow.header ::
          shortDataRow.rows.take (rowsToShow shortDataRow.rows.length 0),
        ∀ (j : Nat) (cell : Cell), row[j]? = some cell →
          j < shortDataRow.header.length ∧ ∃ w, widths[j]? = some w) ∧
      (∀ row ∈ shortDataRow.header ::
          shortDataRow.rows.take (rowsToShow shortDataRow.rows.length 0),
        ∀ outrow : Row, outrow.length = shortDataRow.header.length →
        (∃ written, copyTruncatedAndPaddedCellToOutputRow outrow row widths = some written ∧
          written.length = shortDataRow.header.length) ∨
        (∃ (j : Nat) (cell : Cell) (w : Int), row[j]? = some cell ∧ widths[j]? = some w ∧
          getTruncatedAndPaddedCell cell w = none)) :=
  ⟨by decide, by decide, by decide,
    view_indexes_within_header shortDataRow.header shortDataRow.rows 10 0
      (by decide) (by decide)⟩

/-! ## Lemmas about the CSV writer and reader -/

theorem stringsJoin_cons_cons (sep x y : Cell) (rest : List Cell) :
    stringsJoin sep (x :: y :: rest) = x ++ sep ++ stringsJoin sep (y :: rest) := rfl

theorem splitBytes_of_not_mem (sep : Nat) (l : Cell) (h : sep ∉ l) : splitBytes sep l = [l] := by
  induction l with
  | nil => rfl
  | cons b rest ih =>
    have hb : b ≠ sep := fun e => h (by simp [e])
    simp only [splitBytes, hb, if_false, ih (fun e => h (List.mem_cons_of_mem _ e))]

theorem splitBytes_append (sep : Nat) (l rest : Cell) (h : sep ∉ l) :
    splitBytes sep (l ++ sep :: rest) = l :: splitBytes sep rest := by
  induction l with
  | nil => simp [splitBytes]
  | cons b l ih =>
    have hb : b ≠ sep := fun e => h (by simp [e])
    have e := ih (fun e => h (List.mem_cons_of_mem _ e))
    rw [List.cons_append, splitBytes, if_neg hb, e]

theorem plainByte_ne (b : Nat) (h : plainByte b = true) : b ≠ 44 ∧ b ≠ 10 := by
  unfold plainByte at h
  simp only [decide_eq_true_eq] at h
  omega

theorem plainCell_not_mem (c : Cell) (h : plainCell c = true) : 44 ∉ c ∧ 10 ∉ c := by
  unfold plainCell at h
  rw [List.all_eq_true] at h
  exact ⟨fun e => (plainByte_ne 44 (h 44 e)).1 rfl, fun e => (plainByte_ne 10 (h 10 e)).2 rfl⟩

theorem splitBytes_join (record : Row) (hne : record ≠ [])
    (hplain : ∀ c ∈ record, plainCell c = true) :
    splitBytes 44 (stringsJoin [44] record) = record := by
  induction record with
  | nil => exact absurd rfl hne
  | cons c rest ih =>
    have hc := (plainCell_not_mem c (hplain c (List.mem_cons_self _ _))).1
    cases rest with
    | nil => simp only [stringsJoin]; exact splitBytes_of_not_mem 44 c hc
    | cons c2 rest =>
      have hrest := ih (by simp) (fun x hx => hplain x (List.mem_cons_of_mem _ hx))
      simp only [stringsJoin] at hrest ⊢
      rw [List.append_assoc, List.singleton_append, splitBytes_append 44 c _ hc, hrest]

theorem join_not_mem_newline (record : Row) (hplain : ∀ c ∈ record, plainCell c = true) :
    10 ∉ stringsJoin [44] record := by
  induction record with
  | nil => simp [stringsJoin]
  | cons c rest ih =>
    have hc := (plainCell_not_mem c (hplain c (List.mem_cons_self _ _))).2
    cases rest with
    | nil => simpa [stringsJoin] using hc
    | cons c2 rest =>
      have hrest := ih (fun x hx => hplain x (List.mem_cons_of_mem _ hx))
      simp only [stringsJoin] at hrest ⊢
      simp only [List.mem_append, List.mem_singleton, not_or]
      exact ⟨⟨hc, by decide⟩, hrest⟩

theorem join_ne_nil (record : Row) (h1 : record ≠ []) (h2 : record ≠ [[]]) :
    stringsJoin [44] record ≠ [] := by
  cases record with
  | nil => exact absurd rfl h1
  | cons c rest =>
    cases rest with
    | nil =>
      simp only [stringsJoin]
      intro e; exact h2 (by rw [e])
    | cons c2 rest =>
      rw [stringsJoin_cons_cons]
      intro e
      have := congrArg List.length e
      simp at this

theorem splitBytes_recordsText (records : List Row)
    (hplain : ∀ record ∈ records, ∀ c ∈ record, plainCell c = true) :
    splitBytes 10 (recordsText records) = records.map (stringsJoin [44]) ++ [[]] := by
  induction records with
  | nil => rfl
  | cons record rest ih =>
    have hline := join_not_mem_newline record (hplain record (List.mem_cons_self _ _))
    simp only [recordsText, List.map_cons, List.cons_append]
    rw [List.append_assoc, List.singleton_append, splitBytes_append 10 _ _ hline,
      ih (fun r hr => hplain r (List.mem_cons_of_mem _ hr))]

theorem join_bytes_allowed (record : Row) (hplain : ∀ c ∈ record, plainCell c = true) :
    ∀ b ∈ stringsJoin [44] record, (plainByte b || decide (b = 44) || decide (b = 10)) = true := by
  induction record with
  | nil => intro b hb; simp [stringsJoin] at hb
  | cons c rest ih =>
    have hc : ∀ b ∈ c, plainByte b = true := by
      have := hplain c (List.mem_cons_self _ _)
      unfold plainCell at this
      exact List.all_eq_true.1 this
    cases rest with
    | nil =>
      intro b hb
      simp only [stringsJoin] at hb
      simp [hc b hb]
    | cons c2 rest =>
      have hrest := ih (fun x hx => hplain x (List.mem_cons_of_mem _ hx))
      intro b hb
      simp only [stringsJoin, List.mem_append, List.mem_singleton] at hb hrest
      rcases hb with (hb | hb) | hb
      · simp [hc b hb]
      · simp [hb]
      · exact hrest b hb

theorem recordsText_bytes_allowed (records : List Row)
    (hplain : ∀ record ∈ records, ∀ c ∈ record, plainCell c = true) :
    ∀ b ∈ recordsText records, (plainByte b || decide (b = 44) || decide (b = 10)) = true := by
  induction records with
  | nil => intro b hb; simp [recordsText] at hb
  | cons record rest ih =>
    intro b hb
    simp only [recordsText, List.mem_append, List.mem_singleton] at hb
    rcases hb with (hb | hb) | hb
    · exact join_bytes_allowed record (hplain record (List.mem_cons_self _ _)) b hb
    · simp [hb]
    · exact ih (fun r hr => hplain r (List.mem_cons_of_mem _ hr)) b hb

/-- Records of plain cells none of which is written as a blank line are read back as they
were written. -/
theorem csvReadAll_csvWriteAll (records : List Row)
    (hplain : ∀ record ∈ records, ∀ c ∈ record, plainCell c = true)
    (hkept : ∀ record ∈ records, record ≠ [] ∧ record ≠ [[]]) :
    csvWriteAll records = some (recordsText records) ∧
    csvReadAll (recordsText records) = some records := by
  refine ⟨?_, ?_⟩
  · unfold csvWriteAll
    rw [if_pos]
    rw [List.all_eq_true]
    intro record hr
    rw [List.all_eq_true]
    exact hplain record hr
  · unfold csvReadAll
    rw [if_pos (List.all_eq_true.2 (recordsText_bytes_allowed records hplain))]
    rw [splitBytes_recordsText records hplain, List.filter_append]
    have hfilter : (records.map (stringsJoin [44])).filter (fun line => decide (line ≠ [])) =
        records.map (stringsJoin [44]) := by
      rw [List.filter_eq_self]
      intro line hl
      obtain ⟨record, hr, hrl⟩ := List.mem_map.1 hl
      rw [← hrl]
      simpa using join_ne_nil record (hkept record hr).1 (hkept record hr).2
    rw [hfilter]
    simp only [List.filter_cons, ne_eq, not_true_eq_false, decide_False, Bool.false_eq_true,
      if_false, List.filter_nil, List.append_nil, List.map_map]
    congr 1
    conv => rhs; rw [← List.map_id records]
    apply List.map_congr_left
    intro record hr
    exact splitBytes_join record (hkept record hr).1 (hplain record hr)

theorem plainCell_take (c : Cell) (n : Nat) (h : plainCell c = true) :
    plainCell (c.take n) = true := by
  unfold plainCell at h ⊢
  rw [List.all_eq_true] at h ⊢
  exact fun b hb => h b (List.mem_of_mem_take hb)

theorem plainCell_excelCell (c : Cell) (h : plainCell c = true) :
    plainCell (excelCell c) = true := by
  unfold excelCell
  split
  · exact plainCell_take c _ h
  · exact h

theorem plainCell_outRow (n : Nat) (excel : Bool) (row : Row)
    (h : ∀ c ∈ row, plainCell c = true) : ∀ c ∈ outRow n excel row, plainCell c = true := by
  have hn : ∀ c ∈ normalizeRow n row, plainCell c = true := by
    intro c hc
    simp only [normalizeRow, List.mem_append] at hc
    rcases hc with hc | hc
    · exact h c (List.mem_of_mem_take hc)
    · rw [List.eq_of_mem_replicate hc]; rfl
  intro c hc
  unfold outRow at hc
  cases excel
  · exact hn c (by simpa using hc)
  · simp only [if_true] at hc
    obtain ⟨c0, hc0, he⟩ := List.mem_map.1 hc
    rw [← he]; exact plainCell_excelCell c0 (hn c0 hc0)

theorem plainCell_clean (rows : List Row) (noTrim excel numbers : Bool)
    (h : ∀ row ∈ rows, ∀ c ∈ row, plainCell c = true) :
    ∀ out ∈ Clean rows noTrim excel numbers, ∀ c ∈ out, plainCell c = true := by
  intro out hout
  rw [Clean_eq] at hout
  obtain ⟨row, hrow, he⟩ := List.mem_map.1 hout
  rw [← he]
  exact plainCell_outRow _ excel row (h row (List.mem_of_mem_take hrow))

/-! ## The claim about running `clean` on its own output -/

/-- Claim C18 as stated fails for the program, which can only apply `Clean` to the rows it
emitted after they went through the CSV writer and reader. The text `a,\n,\nb,\n` is
read as `["a",""], ["",""], ["b",""]`; `Clean` writes the rows `["a"], [""], ["b"]`, that
is the text `a\n\nb\n`, whose blank line the reader skips: the second run reads and
writes `["a"], ["b"]`, not the rows of the first run. -/
theorem clean_not_idempotent_through_blank_line :
    csvReadAll blankLineText = some blankLineRows ∧
    (∀ noTrim excel : Bool,
      Clean blankLineRows noTrim excel false = [[ascii "a"], [[]], [ascii "b"]] ∧
      csvWriteAll (Clean blankLineRows noTrim excel false) =
        some (ascii "a" ++ [10, 10] ++ ascii "b" ++ [10]) ∧
      csvReadAll (ascii "a" ++ [10, 10] ++ ascii "b" ++ [10]) =
        some [[ascii "a"], [ascii "b"]] ∧
      Clean [[ascii "a"], [ascii "b"]] noTrim excel false = [[ascii "a"], [ascii "b"]] ∧
      Clean [[ascii "a"], [ascii "b"]] noTrim excel false ≠
        Clean blankLineRows noTrim excel false) := by
  refine ⟨by decide, ?_⟩
  intro noTrim excel
  cases noTrim <;> cases excel <;> decide

/-- Claim C18, amended. With `numbers` off, for every dataset of plain cells (cells the CSV
writer writes without quotes) for which `Clean` emits no row that is written as a blank
line (no row of zero cells or of one empty cell), and every setting of `noTrim` and
`excel`: the rows `Clean` emitted, written by the CSV writer and read back by the CSV
reader, are those rows, and `Clean` with the same flags on them yields exactly those rows
again, hence the same text. -/
theorem clean_idempotent_through_csv (rows : List Row) (noTrim excel : Bool)
    (hplain : ∀ row ∈ rows, ∀ c ∈ row, plainCell c = true)
    (hkept : ∀ out ∈ Clean rows noTrim excel false, out ≠ [] ∧ out ≠ [[]]) :
    ∃ text reread,
      csvWriteAll (Clean rows noTrim excel false) = some text ∧
      csvReadAll text = some reread ∧
      reread = Clean rows noTrim excel false ∧
      Clean reread noTrim excel false = Clean rows noTrim excel false ∧
      csvWriteAll (Clean reread noTrim excel false) = some text := by
  obtain ⟨hwrite, hread⟩ := csvReadAll_csvWriteAll (Clean rows noTrim excel false)
    (plainCell_clean rows noTrim excel false hplain) hkept
  refine ⟨_, _, hwrite, hread, rfl, clean_clean rows noTrim excel, ?_⟩
  rw [clean_clean rows noTrim excel]; exact hwrite

/-- Claim C18, amended, at the specification's example with the default flags: the rows
written are `["a","b"], ["c",""]`, the text is `a,b\nc,\n`. -/
theorem clean_idempotent_through_csv_witness :
    (∀ row ∈ specExample, ∀ c ∈ row, plainCell c = true) ∧
    (∀ out ∈ Clean specExample false false false, out ≠ [] ∧ out ≠ [[]]) ∧
    csvWriteAll (Clean specExample false false false) =
      some (ascii "a,b" ++ [10] ++ ascii "c," ++ [10]) ∧
    ∃ text reread,
      csvWriteAll (Clean specExample false false false) = some text ∧
      csvReadAll text = some reread ∧
      reread = Clean specExample false false false ∧
      Clean reread false false false = Clean specExample false false false ∧
      csvWriteAll (Clean reread false false false) = some text :=
  ⟨by decide, by decide, by decide,
    clean_idempotent_through_csv specExample false false (by decide) (by decide)⟩

end Gocsv
